import Mathlib

set_option maxRecDepth 100000

/-!
Verification of the append-only event log ("cube") of the akasha
repository, as implemented in `src/data/write.rs`, together with the
commit ("seal") protocol of `src/ak.rs`.

The cube file is modelled as a `List Nat` of bytes (each byte `< 256`
where it matters).  All integers are little-endian on the wire.  Machine
integers of the Rust source (`u16`, `u32`, `u64`, `u128`) are modelled
as `Nat` with explicit `% 2 ^ w` reductions at the points where the
source performs an `as` cast or relies on fixed-width reads.
-/

namespace Akasha

/-! ## Little-endian byte encoding -/

/-- Encode `v` as `w` little-endian bytes (mirrors `to_le_bytes` in the
source; the implicit truncation to `w` bytes matches the fixed-width
integer types used there). -/
def toLEBytes : Nat → Nat → List Nat
  | 0, _ => []
  | w + 1, v => v % 256 :: toLEBytes w (v / 256)

/-- Decode a little-endian byte list (mirrors `from_le_bytes`). -/
def fromLEBytes : List Nat → Nat
  | [] => 0
  | b :: bs => b + 256 * fromLEBytes bs

@[simp] theorem toLEBytes_length (w v : Nat) : (toLEBytes w v).length = w := by
  induction w generalizing v with
  | zero => rfl
  | succ w ih => simp [toLEBytes, ih]

theorem toLEBytes_lt (w v : Nat) : ∀ b ∈ toLEBytes w v, b < 256 := by
  induction w generalizing v with
  | zero => intro b hb; simp [toLEBytes] at hb
  | succ w ih =>
    intro b hb
    simp only [toLEBytes, List.mem_cons] at hb
    rcases hb with h | h
    · subst h; exact Nat.mod_lt _ (by norm_num)
    · exact ih _ b h

theorem fromLEBytes_toLEBytes (w v : Nat) :
    fromLEBytes (toLEBytes w v) = v % 2 ^ (8 * w) := by
  induction w generalizing v with
  | zero => simp [toLEBytes, fromLEBytes, Nat.mod_one]
  | succ w ih =>
    simp only [toLEBytes, fromLEBytes, ih]
    have hpow : 2 ^ (8 * (w + 1)) = 256 * 2 ^ (8 * w) := by
      rw [Nat.mul_add, Nat.pow_add]
      ring
    rw [hpow, Nat.mod_mul]

theorem fromLEBytes_toLEBytes_of_lt {w v : Nat} (h : v < 2 ^ (8 * w)) :
    fromLEBytes (toLEBytes w v) = v := by
  rw [fromLEBytes_toLEBytes, Nat.mod_eq_of_lt h]

theorem fromLEBytes_lt (l : List Nat) (h : ∀ b ∈ l, b < 256) :
    fromLEBytes l < 2 ^ (8 * l.length) := by
  induction l with
  | nil => simp [fromLEBytes]
  | cons b bs ih =>
    have hb : b < 256 := h b (by simp)
    have hbs := ih (fun x hx => h x (by simp [hx]))
    simp only [fromLEBytes, List.length_cons]
    have hpow : 2 ^ (8 * (bs.length + 1)) = 256 * 2 ^ (8 * bs.length) := by
      rw [Nat.mul_add, Nat.pow_add]; ring
    rw [hpow]
    calc b + 256 * fromLEBytes bs < 256 + 256 * fromLEBytes bs := by omega
    _ ≤ 256 * 2 ^ (8 * bs.length) := by
        have : fromLEBytes bs + 1 ≤ 2 ^ (8 * bs.length) := hbs
        nlinarith

theorem fromLEBytes_inj {l1 l2 : List Nat} (hlen : l1.length = l2.length)
    (h1 : ∀ b ∈ l1, b < 256) (h2 : ∀ b ∈ l2, b < 256)
    (h : fromLEBytes l1 = fromLEBytes l2) : l1 = l2 := by
  induction l1 generalizing l2 with
  | nil => cases l2 with
    | nil => rfl
    | cons b bs => simp at hlen
  | cons a as ih =>
    cases l2 with
    | nil => simp at hlen
    | cons b bs =>
      have ha : a < 256 := h1 a (by simp)
      have hb : b < 256 := h2 b (by simp)
      simp only [fromLEBytes] at h
      have hab : a = b := by omega
      subst hab
      have htail : fromLEBytes as = fromLEBytes bs := by omega
      have := ih (by simpa using hlen) (fun x hx => h1 x (by simp [hx]))
        (fun x hx => h2 x (by simp [hx])) htail
      rw [this]

/-! ## CRC-32 (crc32fast, ISO-HDLC reflected polynomial) -/

/-- The reflected CRC-32 polynomial. -/
def CRC_POLY : Nat := 0xEDB88320

/-- One bit step of the reflected CRC-32 computation. -/
def crcRound (c : Nat) : Nat :=
  if c % 2 = 1 then (c >>> 1) ^^^ CRC_POLY else c >>> 1

/-- Iterate `crcRound`. -/
def crcRounds : Nat → Nat → Nat
  | 0, c => c
  | n + 1, c => crcRounds n (crcRound c)

/-- Process one byte: XOR it into the state, then eight bit steps. -/
def crcByte (c b : Nat) : Nat := crcRounds 8 (c ^^^ b)

/-- Run the CRC state machine over a byte list. -/
def crcLoop (c : Nat) (data : List Nat) : Nat := data.foldl crcByte c

/-- CRC-32 of a byte list: initial value and final XOR `0xFFFFFFFF`
(this is what `crc32fast::Hasher::new / update / finalize` computes). -/
def crc32 (data : List Nat) : Nat := crcLoop 0xFFFFFFFF data ^^^ 0xFFFFFFFF

theorem crcRound_lt {c : Nat} (h : c < 2 ^ 32) : crcRound c < 2 ^ 32 := by
  unfold crcRound
  have hsh : c >>> 1 < 2 ^ 32 := by
    rw [Nat.shiftRight_one]
    omega
  split
  · exact Nat.xor_lt_two_pow hsh (by norm_num [CRC_POLY])
  · exact hsh

theorem crcRounds_lt {c : Nat} (n : Nat) (h : c < 2 ^ 32) : crcRounds n c < 2 ^ 32 := by
  induction n generalizing c with
  | zero => exact h
  | succ n ih => exact ih (crcRound_lt h)

theorem crcByte_lt {c b : Nat} (hc : c < 2 ^ 32) (hb : b < 256) :
    crcByte c b < 2 ^ 32 := by
  unfold crcByte
  exact crcRounds_lt 8 (Nat.xor_lt_two_pow hc (by omega))

theorem crcLoop_lt {c : Nat} {data : List Nat} (hc : c < 2 ^ 32)
    (hd : ∀ b ∈ data, b < 256) : crcLoop c data < 2 ^ 32 := by
  induction data generalizing c with
  | nil => exact hc
  | cons b bs ih =>
    exact ih (crcByte_lt hc (hd b (by simp))) (fun x hx => hd x (by simp [hx]))

theorem crc32_lt {data : List Nat} (hd : ∀ b ∈ data, b < 256) :
    crc32 data < 2 ^ 32 := by
  unfold crc32
  exact Nat.xor_lt_two_pow (crcLoop_lt (by norm_num) hd) (by norm_num)

/-! ## UTF-8 validation (mirrors `std::str::from_utf8` acceptance) -/

/-- Whether `c` is a UTF-8 continuation byte (`0x80..=0xBF`). -/
def contOk (c : Nat) : Prop := 128 ≤ c ∧ c ≤ 191

instance (c : Nat) : Decidable (contOk c) := by unfold contOk; infer_instance

/-- Admissible range of the first continuation byte, which depends on the
leading byte (excluding overlong encodings, surrogates, and values above
`U+10FFFF`, exactly as Rust's `std::str::from_utf8` does). -/
def cont1Ok (b c1 : Nat) : Prop :=
  if b = 224 then 160 ≤ c1 ∧ c1 ≤ 191
  else if b = 237 then 128 ≤ c1 ∧ c1 ≤ 159
  else if b = 240 then 144 ≤ c1 ∧ c1 ≤ 191
  else if b = 244 then 128 ≤ c1 ∧ c1 ≤ 143
  else contOk c1

instance (b c1 : Nat) : Decidable (cont1Ok b c1) := by unfold cont1Ok; infer_instance

/-- Consume one UTF-8 encoded scalar value from the front of the list,
returning the remaining bytes, or `none` if the front is not a valid
encoding. -/
def utf8Step : List Nat → Option (List Nat)
  | [] => none
  | b :: rest =>
    if b < 128 then some rest
    else if b < 194 then none
    else if b ≤ 223 then
      if 1 ≤ rest.length ∧ cont1Ok b (rest.getD 0 0) then some (rest.drop 1) else none
    else if b ≤ 239 then
      if 2 ≤ rest.length ∧ cont1Ok b (rest.getD 0 0) ∧ contOk (rest.getD 1 0) then
        some (rest.drop 2)
      else none
    else if b ≤ 244 then
      if 3 ≤ rest.length ∧ cont1Ok b (rest.getD 0 0) ∧ contOk (rest.getD 1 0) ∧
          contOk (rest.getD 2 0) then
        some (rest.drop 3)
      else none
    else none

/-- Fuelled UTF-8 validation loop; `utf8Step` always consumes at least
one byte, so fuel equal to the list length is always enough. -/
def utf8ValidF : Nat → List Nat → Bool
  | _, [] => true
  | 0, _ :: _ => false
  | f + 1, b :: rest =>
    match utf8Step (b :: rest) with
    | some r => utf8ValidF f r
    | none => false

/-- Strict UTF-8 validity of a byte list, exactly the byte sequences
accepted by Rust's `std::str::from_utf8`. -/
def utf8Valid (l : List Nat) : Bool := utf8ValidF l.length l

theorem utf8Step_shrink : ∀ {l r : List Nat}, utf8Step l = some r → r.length < l.length := by
  intro l r h
  match l with
  | [] => simp [utf8Step] at h
  | b :: rest =>
    simp only [utf8Step] at h
    split_ifs at h
    all_goals cases h
    all_goals simp only [List.length_cons, List.length_drop]
    all_goals omega

theorem utf8ValidF_fuel : ∀ (f : Nat) (l : List Nat), l.length ≤ f →
    utf8ValidF f l = utf8Valid l
  | f, [], _ => by cases f <;> rfl
  | 0, b :: rest, hl => by simp at hl
  | f + 1, b :: rest, hl => by
    show utf8ValidF (f + 1) (b :: rest) = utf8ValidF (rest.length + 1) (b :: rest)
    rw [utf8ValidF, utf8ValidF]
    cases hstep : utf8Step (b :: rest) with
    | none => rfl
    | some r =>
      have hr := utf8Step_shrink hstep
      simp only [List.length_cons] at hr
      simp only [List.length_cons] at hl
      show utf8ValidF f r = utf8ValidF rest.length r
      rw [utf8ValidF_fuel f r (by omega), utf8ValidF_fuel rest.length r (by omega)]
  termination_by f _ _ => f

/-- Pure-ASCII byte lists are valid UTF-8. -/
theorem utf8Valid_of_ascii : ∀ {l : List Nat}, (∀ b ∈ l, b < 128) → utf8Valid l = true := by
  intro l
  induction l with
  | nil => intro _; rfl
  | cons b rest ih =>
    intro h
    have hb : b < 128 := h b (by simp)
    have hstep : utf8Step (b :: rest) = some rest := by
      rw [utf8Step, if_pos hb]
    show utf8ValidF (rest.length + 1) (b :: rest) = true
    rw [utf8ValidF]
    rw [hstep]
    show utf8ValidF rest.length rest = true
    rw [utf8ValidF_fuel rest.length rest (by omega)]
    exact ih (fun x hx => h x (by simp [hx]))

/-! ## On-disk format (`src/data/write.rs`) -/

/-- The 4-byte magic `b"AKLA"`. -/
def MAGIC : List Nat := [65, 75, 76, 65]

/-- The 16-byte header: magic, version 1 (u16 LE), `next_id` (u64 LE),
two reserved zero bytes (`Writer::write_header`). -/
def headerBytes (nextId : Nat) : List Nat :=
  MAGIC ++ (toLEBytes 2 1 ++ (toLEBytes 8 nextId ++ [0, 0]))

/-- Overwrite `bytes.length` bytes of `file` starting at `off` (models a
seek + `write_all` inside the existing file region). -/
def writeAt (file : List Nat) (off : Nat) (bytes : List Nat) : List Nat :=
  file.take off ++ bytes ++ file.drop (off + bytes.length)

/-- Record payload: timestamp (u128 LE), id (u64 LE), `ph_len` (u16 LE),
`no_len` (u16 LE), phenomenon bytes, noumenon bytes.  The length fields
are reduced mod `2 ^ 16` exactly as the `as u16` casts in
`Writer::append` do. -/
def payloadBytes (ts id : Nat) (ph no : List Nat) : List Nat :=
  toLEBytes 16 ts ++ (toLEBytes 8 id ++ (toLEBytes 2 ph.length ++
    (toLEBytes 2 no.length ++ (ph ++ no))))

/-- A full record frame: `len_total` (u32 LE, payload + 4 CRC bytes),
the payload, and the CRC-32 of the payload. -/
def frameBytes (payload : List Nat) : List Nat :=
  toLEBytes 4 (payload.length + 4) ++ (payload ++ toLEBytes 4 (crc32 payload))

/-- Concatenation of record frames. -/
def framesBytes (ps : List (List Nat)) : List Nat := (ps.map frameBytes).flatten

/-- In-memory writer state: the cube file contents and the `next_id`
counter (`Writer { f, next_id }`). -/
structure WriterState where
  file : List Nat
  next_id : Nat
deriving DecidableEq

/-- One event as returned by the readers (`Event` in `src/event/mod.rs`,
with the two strings kept as UTF-8 byte lists). -/
structure Event where
  id : Nat
  phenomenon : List Nat
  noumenon : List Nat
  timestamp : Nat
deriving DecidableEq

/-- `Writer::append`: seek to EOF (the returned offset), build the
payload with the current wall clock `ts` and the current `next_id`,
write the frame, then bump `next_id` (failing on u64 overflow, i.e.
when `next_id = 2 ^ 64 - 1`) and persist it into the header at offset 6.
Returns the new state and the frame's byte offset. -/
def append (s : WriterState) (ts : Nat) (phenomenon noumenon : List Nat) :
    Option (WriterState × Nat) :=
  let start := s.file.length
  let payload := payloadBytes ts s.next_id phenomenon noumenon
  if s.next_id + 1 < 2 ^ 64 then
    some (⟨writeAt (s.file ++ frameBytes payload) 6 (toLEBytes 8 (s.next_id + 1)),
           s.next_id + 1⟩, start)
  else none

/-- The u32 length prefix at the front of a record frame. -/
def lenOf (rest : List Nat) : Nat := fromLEBytes (rest.take 4)

/-- The `len`-byte entry following the length prefix. -/
def entryOf (rest : List Nat) : List Nat := (rest.drop 4).take (lenOf rest)

/-- The payload part of the entry (everything but the trailing CRC). -/
def payloadOf (rest : List Nat) : List Nat := (entryOf rest).take (lenOf rest - 4)

/-- The 4 trailing CRC bytes of the entry. -/
def crcbOf (rest : List Nat) : List Nat := (entryOf rest).drop (lenOf rest - 4)

/-- The timestamp field of a payload (`payload[0..16]`, u128 LE). -/
def tsOf (p : List Nat) : Nat := fromLEBytes (p.take 16)

/-- The id field of a payload (`payload[16..24]`, u64 LE), as extracted
by `rebuild_index` and `compute_max_id_from_file`. -/
def idOfPayload (p : List Nat) : Nat := fromLEBytes ((p.drop 16).take 8)

/-- The `ph_len` field of a payload (`payload[24..26]`, u16 LE). -/
def phLenOf (p : List Nat) : Nat := fromLEBytes ((p.drop 24).take 2)

/-- The `no_len` field of a payload (`payload[26..28]`, u16 LE). -/
def noLenOf (p : List Nat) : Nat := fromLEBytes ((p.drop 26).take 2)

/-- The phenomenon bytes of a payload (`payload[28..28+ph_len]`). -/
def phOf (p : List Nat) : List Nat := (p.drop 28).take (phLenOf p)

/-- The noumenon bytes of a payload (the `no_len` bytes after the
phenomenon). -/
def noOf (p : List Nat) : List Nat := (p.drop (28 + phLenOf p)).take (noLenOf p)

/-- `Writer::read_valid_entry`: read the 4-byte length prefix (EOF or a
partial read stops iteration), reject `len < 32`, read exactly `len`
bytes (a short read stops iteration), then verify the CRC. -/
def read_valid_entry (rest : List Nat) : Option (Nat × List Nat) :=
  if rest.length < 4 then none
  else if lenOf rest < 32 then none
  else if rest.length < 4 + lenOf rest then none
  else if crc32 (payloadOf rest) = fromLEBytes (crcbOf rest) then
    some (lenOf rest, payloadOf rest)
  else none

/-- Fuelled scan loop shared by `read_all`, `rebuild_index`,
`compute_max_id_from_file` and `rebuild_seen_index_from_log`: collect
`(offset, len, payload)` of consecutive valid entries, stopping at the
first invalid one.  Every entry consumes at least 36 bytes, so fuel
equal to the remaining byte count always suffices. -/
def scanEntries : Nat → Nat → List Nat → List (Nat × Nat × List Nat)
  | 0, _, _ => []
  | f + 1, off, rest =>
    match read_valid_entry rest with
    | none => []
    | some (len, payload) =>
      (off, len, payload) :: scanEntries f (off + 4 + len) (rest.drop (4 + len))

/-- All valid entries of a cube file, with their byte offsets (the scan
starts right after the 16-byte header). -/
def entriesOf (file : List Nat) : List (Nat × Nat × List Nat) :=
  scanEntries file.length 16 (file.drop 16)

/-- The payloads of the consecutive valid entries of a byte stream. -/
def readFrames (rest : List Nat) : List (List Nat) :=
  (scanEntries rest.length 0 rest).map (fun e => e.2.2)

/-- `Writer::parse_payload`: bounds-checked parse of one payload into an
event; `none` on a short payload, out-of-range string lengths, or
invalid UTF-8. -/
def parse_payload (p : List Nat) : Option Event :=
  if p.length < 28 then none
  else if 28 + phLenOf p + noLenOf p ≤ p.length then
    if utf8Valid (phOf p) && utf8Valid (noOf p) then
      some ⟨idOfPayload p, phOf p, noOf p, tsOf p⟩
    else none
  else none

/-- `Writer::read_all` prints every entry the scan visits whose payload
parses (its header validation and seek are reflected by the scan
starting at offset 16); modelled as the list of printed events.
Iteration stops only where `read_valid_entry` stops; unparseable
payloads are skipped, not fatal. -/
def read_all (file : List Nat) : List Event :=
  (readFrames (file.drop 16)).filterMap parse_payload

/-- Outcome of `Writer::read_one_at`: a parsed event, an `io::Error`
return (`UnexpectedEof` on a short read, `InvalidData` on CRC mismatch),
or a panic (usize underflow, slice out of bounds, `unwrap` on invalid
UTF-8). -/
inductive ReadOneResult where
  | ok (ev : Event)
  | ioErr
  | panic
deriving DecidableEq

/-- Body of `Writer::read_one_at` after seeking to the offset: read the
length prefix and `len` bytes (`io::Error` on EOF), `split_at (len - 4)`
(panics when `len < 4`), verify the CRC (`io::Error` on mismatch), then
parse the payload with *unchecked* slicing and `unwrap`ped UTF-8
conversions, so malformed payloads panic instead of erroring. -/
def readOneFrom (rest : List Nat) : ReadOneResult :=
  if rest.length < 4 then .ioErr
  else if rest.length < 4 + lenOf rest then .ioErr
  else if lenOf rest < 4 then .panic
  else if crc32 (payloadOf rest) ≠ fromLEBytes (crcbOf rest) then .ioErr
  else if (payloadOf rest).length < 28 then .panic
  else if (payloadOf rest).length < 28 + phLenOf (payloadOf rest) then .panic
  else if ¬ utf8Valid (phOf (payloadOf rest)) then .panic
  else if (payloadOf rest).length < 28 + phLenOf (payloadOf rest) +
      noLenOf (payloadOf rest) then .panic
  else if ¬ utf8Valid (noOf (payloadOf rest)) then .panic
  else .ok ⟨idOfPayload (payloadOf rest), phOf (payloadOf rest),
            noOf (payloadOf rest), tsOf (payloadOf rest)⟩

/-- `Writer::read_one_at path offset`. -/
def read_one_at (file : List Nat) (offset : Nat) : ReadOneResult :=
  readOneFrom (file.drop offset)

/-- `Writer::compute_max_id_from_file`: fold the maximum id over all
valid entries (entries with a payload shorter than 24 bytes are
skipped, but the scan continues). -/
def compute_max_id_from_file (file : List Nat) : Option Nat :=
  (entriesOf file).foldl
    (fun m e =>
      if 24 ≤ e.2.2.length then
        some (m.elim (idOfPayload e.2.2) (fun x => max x (idOfPayload e.2.2)))
      else m)
    none

/-- Result of `Writer::create`: the (possibly updated) file contents and
the in-memory `next_id`, or an error. -/
inductive CreateResult where
  | ok (file : List Nat) (next_id : Nat)
  | err
deriving DecidableEq

/-- The recovered `next_id` after a scan:
`max_id.and_then(|m| m.checked_add(1)).unwrap_or(1)` — `max(id) + 1`,
falling back to 1 when no valid record exists or the increment
overflows u64. -/
def recoveredNextId : Option Nat → Nat
  | none => 1
  | some m => if m + 1 < 2 ^ 64 then m + 1 else 1

/-- `Writer::create`: an empty file gets a fresh header with
`next_id = 1`.  Otherwise the 16-byte header is read (error on a
shorter file) and only the magic is validated; `next_id` is loaded from
offset 6, and if it is zero it is recovered as `max(id) + 1` (falling
back to 1 when there is no valid record or when `checked_add`
overflows u64) and persisted back into the header. -/
def create (file : List Nat) : CreateResult :=
  if file.length = 0 then .ok (headerBytes 1) 1
  else if file.length < 16 then .err
  else if file.take 4 ≠ MAGIC then .err
  else if fromLEBytes ((file.drop 6).take 8) = 0 then
    .ok (writeAt file 6 (toLEBytes 8 (recoveredNextId (compute_max_id_from_file file))))
      (recoveredNextId (compute_max_id_from_file file))
  else .ok file (fromLEBytes ((file.drop 6).take 8))

/-- Well-formedness of a record payload needed for its frame to be read
back: at least the 28 fixed bytes, a total that fits the u32 length
prefix, and genuine bytes. -/
def PayloadOk (p : List Nat) : Prop :=
  28 ≤ p.length ∧ p.length + 4 < 2 ^ 32 ∧ ∀ b ∈ p, b < 256

instance (p : List Nat) : Decidable (PayloadOk p) := by
  unfold PayloadOk; infer_instance

/-! ## Payload accessor lemmas -/

theorem payloadBytes_length (ts id : Nat) (ph no : List Nat) :
    (payloadBytes ts id ph no).length = 28 + ph.length + no.length := by
  simp [payloadBytes]
  omega

theorem payloadBytes_lt (ts id : Nat) {ph no : List Nat}
    (hph : ∀ b ∈ ph, b < 256) (hno : ∀ b ∈ no, b < 256) :
    ∀ b ∈ payloadBytes ts id ph no, b < 256 := by
  intro b hb
  simp only [payloadBytes, List.mem_append] at hb
  rcases hb with h | (h | (h | (h | (h | h))))
  · exact toLEBytes_lt 16 ts b h
  · exact toLEBytes_lt 8 id b h
  · exact toLEBytes_lt 2 ph.length b h
  · exact toLEBytes_lt 2 no.length b h
  · exact hph b h
  · exact hno b h

theorem tsOf_payloadBytes (ts id : Nat) (ph no : List Nat) :
    tsOf (payloadBytes ts id ph no) = ts % 2 ^ 128 := by
  unfold tsOf payloadBytes
  rw [List.take_left' (by simp), fromLEBytes_toLEBytes]

theorem drop16_payloadBytes (ts id : Nat) (ph no : List Nat) :
    (payloadBytes ts id ph no).drop 16 =
      toLEBytes 8 id ++ (toLEBytes 2 ph.length ++ (toLEBytes 2 no.length ++ (ph ++ no))) := by
  unfold payloadBytes
  exact List.drop_left' (by simp)

theorem idOf_payloadBytes (ts id : Nat) (ph no : List Nat) :
    idOfPayload (payloadBytes ts id ph no) = id % 2 ^ 64 := by
  unfold idOfPayload
  rw [drop16_payloadBytes, List.take_left' (by simp), fromLEBytes_toLEBytes]

theorem drop24_payloadBytes (ts id : Nat) (ph no : List Nat) :
    (payloadBytes ts id ph no).drop 24 =
      toLEBytes 2 ph.length ++ (toLEBytes 2 no.length ++ (ph ++ no)) := by
  have h : (payloadBytes ts id ph no).drop 24 =
      ((payloadBytes ts id ph no).drop 16).drop 8 := by
    rw [List.drop_drop]
  rw [h, drop16_payloadBytes, List.drop_left' (by simp)]

theorem phLenOf_payloadBytes (ts id : Nat) (ph no : List Nat) :
    phLenOf (payloadBytes ts id ph no) = ph.length % 2 ^ 16 := by
  unfold phLenOf
  rw [drop24_payloadBytes, List.take_left' (by simp), fromLEBytes_toLEBytes]

theorem drop26_payloadBytes (ts id : Nat) (ph no : List Nat) :
    (payloadBytes ts id ph no).drop 26 = toLEBytes 2 no.length ++ (ph ++ no) := by
  have h : (payloadBytes ts id ph no).drop 26 =
      ((payloadBytes ts id ph no).drop 24).drop 2 := by
    rw [List.drop_drop]
  rw [h, drop24_payloadBytes, List.drop_left' (by simp)]

theorem noLenOf_payloadBytes (ts id : Nat) (ph no : List Nat) :
    noLenOf (payloadBytes ts id ph no) = no.length % 2 ^ 16 := by
  unfold noLenOf
  rw [drop26_payloadBytes, List.take_left' (by simp), fromLEBytes_toLEBytes]

theorem drop28_payloadBytes (ts id : Nat) (ph no : List Nat) :
    (payloadBytes ts id ph no).drop 28 = ph ++ no := by
  have h : (payloadBytes ts id ph no).drop 28 =
      ((payloadBytes ts id ph no).drop 26).drop 2 := by
    rw [List.drop_drop]
  rw [h, drop26_payloadBytes, List.drop_left' (by simp)]

theorem phOf_payloadBytes (ts id : Nat) (ph no : List Nat) :
    phOf (payloadBytes ts id ph no) = ph.take (ph.length % 2 ^ 16) := by
  unfold phOf
  rw [drop28_payloadBytes, phLenOf_payloadBytes]
  exact List.take_append_of_le_length (le_trans (Nat.mod_le _ _) (le_refl _))

theorem phOf_payloadBytes_of_le (ts id : Nat) {ph : List Nat} (no : List Nat)
    (h : ph.length ≤ 65535) : phOf (payloadBytes ts id ph no) = ph := by
  rw [phOf_payloadBytes, Nat.mod_eq_of_lt (by omega), List.take_length]

theorem noOf_payloadBytes_of_le (ts id : Nat) {ph no : List Nat}
    (hp : ph.length ≤ 65535) (hn : no.length ≤ 65535) :
    noOf (payloadBytes ts id ph no) = no := by
  unfold noOf
  rw [phLenOf_payloadBytes, noLenOf_payloadBytes,
    Nat.mod_eq_of_lt (show ph.length < 2 ^ 16 by omega),
    Nat.mod_eq_of_lt (show no.length < 2 ^ 16 by omega)]
  have h : (payloadBytes ts id ph no).drop (28 + ph.length) =
      ((payloadBytes ts id ph no).drop 28).drop ph.length := by
    rw [List.drop_drop, Nat.add_comm]
  rw [h, drop28_payloadBytes, List.drop_left' rfl, List.take_length]

/-- Parsing a payload built from in-range, valid-UTF-8 strings recovers
exactly the event that was appended. -/
theorem parse_payloadBytes {ts id : Nat} {ph no : List Nat}
    (hts : ts < 2 ^ 128) (hid : id < 2 ^ 64)
    (hpl : ph.length ≤ 65535) (hnl : no.length ≤ 65535)
    (hphv : utf8Valid ph = true) (hnov : utf8Valid no = true) :
    parse_payload (payloadBytes ts id ph no) = some ⟨id, ph, no, ts⟩ := by
  have hlen := payloadBytes_length ts id ph no
  have hph := phOf_payloadBytes_of_le ts id no hpl
  have hno := noOf_payloadBytes_of_le ts id hpl hnl
  unfold parse_payload
  rw [if_neg (by omega)]
  rw [phLenOf_payloadBytes, noLenOf_payloadBytes,
    Nat.mod_eq_of_lt (show ph.length < 2 ^ 16 by omega),
    Nat.mod_eq_of_lt (show no.length < 2 ^ 16 by omega)]
  rw [if_pos (by omega)]
  rw [hph, hno, hphv, hnov]
  rw [if_pos (by simp)]
  rw [tsOf_payloadBytes, idOf_payloadBytes,
    Nat.mod_eq_of_lt hts, Nat.mod_eq_of_lt hid]

/-! ## Frame reading lemmas -/

@[simp] theorem frameBytes_length (p : List Nat) :
    (frameBytes p).length = p.length + 8 := by
  simp [frameBytes]
  omega

@[simp] theorem framesBytes_nil : framesBytes [] = [] := rfl

@[simp] theorem framesBytes_cons (p : List Nat) (ps : List (List Nat)) :
    framesBytes (p :: ps) = frameBytes p ++ framesBytes ps := by
  simp [framesBytes]

theorem framesBytes_append (ps qs : List (List Nat)) :
    framesBytes (ps ++ qs) = framesBytes ps ++ framesBytes qs := by
  simp [framesBytes]

theorem lenOf_frame {p : List Nat} (hfit : p.length + 4 < 2 ^ 32) (rest : List Nat) :
    lenOf (frameBytes p ++ rest) = p.length + 4 := by
  unfold lenOf frameBytes
  rw [List.append_assoc, List.take_left' (by simp)]
  exact fromLEBytes_toLEBytes_of_lt (by simpa using hfit)

theorem entryOf_frame {p : List Nat} (hfit : p.length + 4 < 2 ^ 32) (rest : List Nat) :
    entryOf (frameBytes p ++ rest) = p ++ toLEBytes 4 (crc32 p) := by
  unfold entryOf
  rw [lenOf_frame hfit]
  show (List.drop 4 (frameBytes p ++ rest)).take (p.length + 4) = _
  rw [frameBytes, List.append_assoc, List.drop_left' (by simp)]
  rw [show p ++ toLEBytes 4 (crc32 p) ++ rest =
    (p ++ toLEBytes 4 (crc32 p)) ++ rest from rfl]
  exact List.take_left' (by simp)

theorem payloadOf_frame {p : List Nat} (hfit : p.length + 4 < 2 ^ 32) (rest : List Nat) :
    payloadOf (frameBytes p ++ rest) = p := by
  unfold payloadOf
  rw [lenOf_frame hfit, entryOf_frame hfit]
  simp only [Nat.add_sub_cancel]
  exact List.take_left' rfl

theorem crcbOf_frame {p : List Nat} (hfit : p.length + 4 < 2 ^ 32) (rest : List Nat) :
    crcbOf (frameBytes p ++ rest) = toLEBytes 4 (crc32 p) := by
  unfold crcbOf
  rw [lenOf_frame hfit, entryOf_frame hfit]
  simp only [Nat.add_sub_cancel]
  exact List.drop_left' rfl

/-- A well-formed frame at the head of the stream is read back exactly. -/
theorem read_valid_entry_frame {p : List Nat} (hp : PayloadOk p) (rest : List Nat) :
    read_valid_entry (frameBytes p ++ rest) = some (p.length + 4, p) := by
  obtain ⟨h28, hfit, hbytes⟩ := hp
  have hlen : (frameBytes p ++ rest).length = p.length + 8 + rest.length := by simp
  have hcrc : fromLEBytes (crcbOf (frameBytes p ++ rest)) = crc32 p := by
    rw [crcbOf_frame hfit]
    exact fromLEBytes_toLEBytes_of_lt (by simpa using crc32_lt hbytes)
  unfold read_valid_entry
  rw [lenOf_frame hfit, payloadOf_frame hfit, hcrc]
  rw [if_neg (by omega), if_neg (by omega), if_neg (by omega), if_pos rfl]

theorem read_valid_entry_some {rest : List Nat} {len : Nat} {p : List Nat}
    (h : read_valid_entry rest = some (len, p)) :
    32 ≤ len ∧ 4 + len ≤ rest.length ∧ p.length = len - 4 ∧
      len = lenOf rest ∧ p = payloadOf rest := by
  unfold read_valid_entry at h
  by_cases h1 : rest.length < 4
  · rw [if_pos h1] at h; cases h
  rw [if_neg h1] at h
  by_cases h2 : lenOf rest < 32
  · rw [if_pos h2] at h; cases h
  rw [if_neg h2] at h
  by_cases h3 : rest.length < 4 + lenOf rest
  · rw [if_pos h3] at h; cases h
  rw [if_neg h3] at h
  by_cases h4 : crc32 (payloadOf rest) = fromLEBytes (crcbOf rest)
  · rw [if_pos h4] at h
    injection h with h'
    injection h' with ha hb
    subst ha; subst hb
    refine ⟨by omega, by omega, ?_, rfl, rfl⟩
    show (payloadOf rest).length = lenOf rest - 4
    unfold payloadOf entryOf
    simp only [List.length_take, List.length_drop]
    omega
  · rw [if_neg h4] at h; cases h

/-- The scan result does not depend on the fuel, provided the fuel is at
least the length of the remaining stream. -/
theorem scanEntries_fuel : ∀ (f1 f2 off : Nat) (rest : List Nat),
    rest.length ≤ f1 → rest.length ≤ f2 →
    scanEntries f1 off rest = scanEntries f2 off rest := by
  intro f1
  induction f1 with
  | zero =>
    intro f2 off rest h1 _
    have hnil : rest = [] := List.length_eq_zero.mp (by omega)
    subst hnil
    cases f2 with
    | zero => rfl
    | succ f2 =>
      show [] = scanEntries (f2 + 1) off []
      rw [scanEntries]
      have hrv : read_valid_entry [] = none := by
        unfold read_valid_entry
        rw [if_pos (by simp)]
      rw [hrv]
  | succ f1 ih =>
    intro f2 off rest h1 h2
    cases f2 with
    | zero =>
      have hnil : rest = [] := List.length_eq_zero.mp (by omega)
      subst hnil
      show scanEntries (f1 + 1) off [] = []
      rw [scanEntries]
      have hrv : read_valid_entry [] = none := by
        unfold read_valid_entry
        rw [if_pos (by simp)]
      rw [hrv]
    | succ f2 =>
      rw [scanEntries, scanEntries]
      cases hrve : read_valid_entry rest with
      | none => rfl
      | some v =>
        obtain ⟨len, p⟩ := v
        obtain ⟨hl32, hlen, -, -, -⟩ := read_valid_entry_some hrve
        have hdl : (rest.drop (4 + len)).length = rest.length - (4 + len) := by simp
        exact congrArg _ (ih f2 (off + 4 + len) (rest.drop (4 + len))
          (by omega) (by omega))

/-- The `(offset, len, payload)` triples produced by scanning a run of
well-formed frames laid out consecutively from `off`. -/
def entriesFor (off : Nat) : List (List Nat) → List (Nat × Nat × List Nat)
  | [] => []
  | p :: t => (off, p.length + 4, p) :: entriesFor (off + 8 + p.length) t

/-- Scanning well-formed frames followed by anything yields exactly the
frames' entries followed by the scan of the tail. -/
theorem scanEntries_frames : ∀ (ps : List (List Nat)) (off : Nat) (rest : List Nat)
    (f : Nat), (∀ p ∈ ps, PayloadOk p) → (framesBytes ps ++ rest).length ≤ f →
    scanEntries f off (framesBytes ps ++ rest) =
      entriesFor off ps ++ scanEntries rest.length (off + (framesBytes ps).length) rest := by
  intro ps
  induction ps with
  | nil =>
    intro off rest f _ hf
    simp only [framesBytes_nil, List.nil_append, entriesFor, List.length_nil,
      Nat.add_zero]
    exact scanEntries_fuel f rest.length off rest (by simpa using hf) (le_refl _)
  | cons p t ih =>
    intro off rest f hok hf
    have hp : PayloadOk p := hok p (by simp)
    have hlist : framesBytes (p :: t) ++ rest = frameBytes p ++ (framesBytes t ++ rest) := by
      rw [framesBytes_cons, List.append_assoc]
    rw [hlist]
    have hlen : (frameBytes p ++ (framesBytes t ++ rest)).length =
        p.length + 8 + (framesBytes t ++ rest).length := by simp
    cases f with
    | zero =>
      exfalso
      rw [hlist] at hf
      rw [hlen] at hf
      omega
    | succ f =>
      rw [scanEntries, read_valid_entry_frame hp]
      show (off, p.length + 4, p) :: scanEntries f (off + 4 + (p.length + 4))
          ((frameBytes p ++ (framesBytes t ++ rest)).drop (4 + (p.length + 4))) = _
      have hdrop : (frameBytes p ++ (framesBytes t ++ rest)).drop (4 + (p.length + 4)) =
          framesBytes t ++ rest :=
        List.drop_left' (by simp; omega)
      rw [hdrop]
      rw [ih (off + 4 + (p.length + 4)) rest f (fun q hq => hok q (by simp [hq]))
        (by rw [hlist] at hf; rw [hlen] at hf; omega)]
      have e1 : off + 4 + (p.length + 4) = off + 8 + p.length := by omega
      have hfl : (framesBytes (p :: t)).length = p.length + 8 + (framesBytes t).length := by
        rw [framesBytes_cons]; simp
      have e2 : off + 4 + (p.length + 4) + (framesBytes t).length =
          off + (framesBytes (p :: t)).length := by rw [hfl]; omega
      rw [e1, show entriesFor off (p :: t) =
        (off, p.length + 4, p) :: entriesFor (off + 8 + p.length) t from rfl]
      rw [List.cons_append]
      rw [show off + 8 + p.length + (framesBytes t).length =
        off + (framesBytes (p :: t)).length by rw [hfl]; omega]

/-! ## Derived scan corollaries -/

theorem scanEntries_shift : ∀ (f c off : Nat) (rest : List Nat),
    scanEntries f (c + off) rest =
      (scanEntries f off rest).map (fun e => (c + e.1, e.2.1, e.2.2)) := by
  intro f
  induction f with
  | zero => intro c off rest; rfl
  | succ f ih =>
    intro c off rest
    rw [scanEntries, scanEntries]
    cases hrve : read_valid_entry rest with
    | none => rfl
    | some v =>
      obtain ⟨len, p⟩ := v
      show (c + off, len, p) :: scanEntries f (c + off + 4 + len) (rest.drop (4 + len)) = _
    
      rw [show c + off + 4 + len = c + (off + 4 + len) by omega]
      rw [ih c (off + 4 + len) (rest.drop (4 + len))]
      rfl

theorem entriesFor_map_payload : ∀ (off : Nat) (ps : List (List Nat)),
    (entriesFor off ps).map (fun e => e.2.2) = ps := by
  intro off ps
  induction ps generalizing off with
  | nil => rfl
  | cons p t ih =>
    show p :: (entriesFor (off + 8 + p.length) t).map (fun e => e.2.2) = p :: t
    rw [ih]

/-- Reading frames of a stream made of well-formed frames followed by a
tail visits all the frames and then continues into the tail. -/
theorem readFrames_frames {ps : List (List Nat)} (hok : ∀ p ∈ ps, PayloadOk p)
    (rest : List Nat) :
    readFrames (framesBytes ps ++ rest) = ps ++ readFrames rest := by
  unfold readFrames
  rw [scanEntries_frames ps 0 rest (framesBytes ps ++ rest).length hok (le_refl _)]
  rw [List.map_append, entriesFor_map_payload]
  congr 1
  rw [show 0 + (framesBytes ps).length = (framesBytes ps).length + 0 by omega]
  rw [scanEntries_shift rest.length (framesBytes ps).length 0 rest]
  rw [List.map_map]
  rfl

theorem readFrames_frames_nil {ps : List (List Nat)} (hok : ∀ p ∈ ps, PayloadOk p) :
    readFrames (framesBytes ps) = ps := by
  have h := readFrames_frames hok []
  simp only [List.append_nil] at h
  rw [h]
  show ps ++ [] = ps
  simp

/-! ## Parsing and random-access reads on well-formed frames -/

theorem parse_payload_some {p : List Nat} {ev : Event}
    (h : parse_payload p = some ev) :
    28 ≤ p.length ∧ 28 + phLenOf p + noLenOf p ≤ p.length ∧
      utf8Valid (phOf p) = true ∧ utf8Valid (noOf p) = true ∧
      ev = ⟨idOfPayload p, phOf p, noOf p, tsOf p⟩ := by
  unfold parse_payload at h
  by_cases h1 : p.length < 28
  · rw [if_pos h1] at h; cases h
  rw [if_neg h1] at h
  by_cases h2 : 28 + phLenOf p + noLenOf p ≤ p.length
  · rw [if_pos h2] at h
    by_cases h3 : utf8Valid (phOf p) && utf8Valid (noOf p)
    · rw [if_pos h3] at h
      injection h with h'
      simp only [Bool.and_eq_true] at h3
      exact ⟨by omega, h2, h3.1, h3.2, h'.symm⟩
    · rw [if_neg h3] at h; cases h
  · rw [if_neg h2] at h; cases h

/-- `read_one_at` on a well-formed frame whose payload parses returns
exactly the parsed event. -/
theorem readOneFrom_frame {p : List Nat} {ev : Event} (hp : PayloadOk p)
    (hparse : parse_payload p = some ev) (rest : List Nat) :
    readOneFrom (frameBytes p ++ rest) = .ok ev := by
  obtain ⟨h28, hfit, hbytes⟩ := hp
  obtain ⟨-, hbound, hphv, hnov, hev⟩ := parse_payload_some hparse
  have hlen : (frameBytes p ++ rest).length = p.length + 8 + rest.length := by simp
  have hcrc : fromLEBytes (crcbOf (frameBytes p ++ rest)) = crc32 p := by
    rw [crcbOf_frame hfit]
    exact fromLEBytes_toLEBytes_of_lt (by simpa using crc32_lt hbytes)
  unfold readOneFrom
  rw [lenOf_frame hfit, payloadOf_frame hfit, hcrc]
  rw [if_neg (by omega), if_neg (by omega), if_neg (by omega),
    if_neg (by simp), if_neg (by omega), if_neg (by omega),
    if_neg (by simp [hphv]), if_neg (by omega), if_neg (by simp [hnov])]
  rw [hev]

theorem read_one_at_append (pre X : List Nat) :
    read_one_at (pre ++ X) pre.length = readOneFrom X := by
  unfold read_one_at
  rw [List.drop_left]

/-! ## `append` and header update lemmas -/

theorem append_eq {s : WriterState} {ts : Nat} {ph no : List Nat}
    (h : s.next_id + 1 < 2 ^ 64) :
    append s ts ph no =
      some (⟨writeAt (s.file ++ frameBytes (payloadBytes ts s.next_id ph no)) 6
               (toLEBytes 8 (s.next_id + 1)), s.next_id + 1⟩, s.file.length) := by
  unfold append
  rw [if_pos h]

theorem writeAt_append_left {A : List Nat} {off : Nat} {bytes : List Nat}
    (h : off + bytes.length ≤ A.length) (B : List Nat) :
    writeAt (A ++ B) off bytes = writeAt A off bytes ++ B := by
  unfold writeAt
  rw [List.take_append_of_le_length (by omega),
    List.drop_append_of_le_length (by omega)]
  simp [List.append_assoc]

@[simp] theorem headerBytes_length (n : Nat) : (headerBytes n).length = 16 := by
  simp [headerBytes, MAGIC]

theorem headerBytes_eq (n : Nat) :
    headerBytes n = (MAGIC ++ toLEBytes 2 1) ++ (toLEBytes 8 n ++ [0, 0]) := by
  simp [headerBytes, List.append_assoc]

theorem writeAt_headerBytes (n m : Nat) (X : List Nat) :
    writeAt (headerBytes n ++ X) 6 (toLEBytes 8 m) = headerBytes m ++ X := by
  rw [writeAt_append_left (by simp)]
  congr 1

theorem writeAt_length {A : List Nat} {off : Nat} {bytes : List Nat}
    (h : off + bytes.length ≤ A.length) : (writeAt A off bytes).length = A.length := by
  unfold writeAt
  simp
  omega

/-- PayloadOk holds for payloads built by `append` from bounded inputs. -/
theorem PayloadOk_payloadBytes (ts id : Nat) {ph no : List Nat}
    (hfit : ph.length + no.length + 32 < 2 ^ 32)
    (hphb : ∀ b ∈ ph, b < 256) (hnob : ∀ b ∈ no, b < 256) :
    PayloadOk (payloadBytes ts id ph no) := by
  refine ⟨?_, ?_, payloadBytes_lt ts id hphb hnob⟩
  · rw [payloadBytes_length]; omega
  · rw [payloadBytes_length]; omega

/-- Appending to a well-formed state extends the frame list and bumps the
header and the in-memory counter in lockstep. -/
theorem append_state {n : Nat} {ps : List (List Nat)} {ts : Nat} {ph no : List Nat}
    (hn : n + 1 < 2 ^ 64) :
    append ⟨headerBytes n ++ framesBytes ps, n⟩ ts ph no =
      some (⟨headerBytes (n + 1) ++ framesBytes (ps ++ [payloadBytes ts n ph no]), n + 1⟩,
            (headerBytes n ++ framesBytes ps).length) := by
  have hfile : writeAt ((headerBytes n ++ framesBytes ps) ++
      frameBytes (payloadBytes ts n ph no)) 6 (toLEBytes 8 (n + 1)) =
      headerBytes (n + 1) ++ framesBytes (ps ++ [payloadBytes ts n ph no]) := by
    rw [List.append_assoc, writeAt_headerBytes, framesBytes_append]
    simp [framesBytes]
  rw [append_eq hn]
  show (some ((⟨writeAt ((headerBytes n ++ framesBytes ps) ++
      frameBytes (payloadBytes ts n ph no)) 6 (toLEBytes 8 (n + 1)), n + 1⟩ : WriterState),
      (headerBytes n ++ framesBytes ps).length) : Option (WriterState × Nat)) = _
  rw [hfile]

/-- Full specification of one append followed by a random-access read at
the returned offset, on any open cube state. -/
theorem append_read_spec (s : WriterState) (ts : Nat) (ph no : List Nat)
    (hfile : 16 ≤ s.file.length) (hts : ts < 2 ^ 128)
    (hphv : utf8Valid ph = true) (hnov : utf8Valid no = true)
    (hphb : ∀ b ∈ ph, b < 256) (hnob : ∀ b ∈ no, b < 256)
    (hpl : ph.length ≤ 65535) (hnl : no.length ≤ 65535)
    (hid : s.next_id + 1 < 2 ^ 64) :
    append s ts ph no = some
      (⟨writeAt (s.file ++ frameBytes (payloadBytes ts s.next_id ph no)) 6
          (toLEBytes 8 (s.next_id + 1)), s.next_id + 1⟩, s.file.length) ∧
    read_one_at (writeAt (s.file ++ frameBytes (payloadBytes ts s.next_id ph no)) 6
        (toLEBytes 8 (s.next_id + 1))) s.file.length =
      .ok ⟨s.next_id, ph, no, ts⟩ := by
  refine ⟨append_eq hid, ?_⟩
  have hW : writeAt (s.file ++ frameBytes (payloadBytes ts s.next_id ph no)) 6
      (toLEBytes 8 (s.next_id + 1)) =
      writeAt s.file 6 (toLEBytes 8 (s.next_id + 1)) ++
        frameBytes (payloadBytes ts s.next_id ph no) :=
    writeAt_append_left (by simp; omega) _
  rw [hW]
  have hlen : (writeAt s.file 6 (toLEBytes 8 (s.next_id + 1))).length = s.file.length :=
    writeAt_length (by simp; omega)
  rw [← hlen, read_one_at_append]
  have hok : PayloadOk (payloadBytes ts s.next_id ph no) :=
    PayloadOk_payloadBytes ts s.next_id (by omega) hphb hnob
  have hparse : parse_payload (payloadBytes ts s.next_id ph no) =
      some ⟨s.next_id, ph, no, ts⟩ :=
    parse_payloadBytes hts (by omega) hpl hnl hphv hnov
  have h := readOneFrom_frame hok hparse []
  rw [List.append_nil] at h
  exact h

/-- C1: for every pair `(p, n)` of UTF-8 strings of at most 65 535 bytes
each, `append p n` on an open cube returns the offset of the new frame,
and `read_one_at` on the resulting file at that offset returns an event
whose phenomenon is `p`, whose noumenon is `n`, and whose id is the
`next_id` the writer held at the moment of the append. -/
theorem c1_round_trip (s : WriterState) (ts : Nat) (ph no : List Nat)
    (hfile : 16 ≤ s.file.length) (hts : ts < 2 ^ 128)
    (hphv : utf8Valid ph = true) (hnov : utf8Valid no = true)
    (hphb : ∀ b ∈ ph, b < 256) (hnob : ∀ b ∈ no, b < 256)
    (hpl : ph.length ≤ 65535) (hnl : no.length ≤ 65535)
    (hid : s.next_id + 1 < 2 ^ 64) :
    ∃ (s' : WriterState) (off : Nat), append s ts ph no = some (s', off) ∧
      off = s.file.length ∧
      read_one_at s'.file off = .ok ⟨s.next_id, ph, no, ts⟩ := by
  obtain ⟨h1, h2⟩ := append_read_spec s ts ph no hfile hts hphv hnov hphb hnob hpl hnl hid
  exact ⟨_, _, h1, rfl, h2⟩

/-- Witness for C1 at a concrete input: appending `("k", "v")` to a
fresh cube and reading the frame back. -/
theorem c1_round_trip_witness :
    ∃ (s' : WriterState) (off : Nat),
      append ⟨headerBytes 1, 1⟩ 5 [107] [118] = some (s', off) ∧
      off = (⟨headerBytes 1, 1⟩ : WriterState).file.length ∧
      read_one_at s'.file off = .ok ⟨1, [107], [118], 5⟩ :=
  c1_round_trip ⟨headerBytes 1, 1⟩ 5 [107] [118] (by decide) (by decide)
    (by decide) (by decide) (by decide) (by decide) (by decide) (by decide)
    (by decide)

/-- C7: on a freshly created cube, a single `append("k", "v")` leaves a
54-byte file, and `read_one_at` at offset 16 yields the event with id 1,
phenomenon `"k"`, noumenon `"v"`, and exactly the timestamp sampled
during the append. -/
theorem c7_single_append (ts : Nat) (hts : ts < 2 ^ 128) :
    append ⟨headerBytes 1, 1⟩ ts [107] [118] =
      some (⟨headerBytes 2 ++ frameBytes (payloadBytes ts 1 [107] [118]), 2⟩, 16) ∧
    (headerBytes 2 ++ frameBytes (payloadBytes ts 1 [107] [118])).length = 54 ∧
    read_one_at (headerBytes 2 ++ frameBytes (payloadBytes ts 1 [107] [118])) 16 =
      .ok ⟨1, [107], [118], ts⟩ := by
  refine ⟨?_, ?_, ?_⟩
  · have h := @append_state 1 [] ts [107] [118]
      (by norm_num)
    rw [framesBytes_nil, List.append_nil] at h
    rw [h]
    simp [framesBytes]
  · simp [payloadBytes_length]
  · rw [show (16 : Nat) = (headerBytes 2).length from by simp, read_one_at_append]
    have hok : PayloadOk (payloadBytes ts 1 [107] [118]) :=
      PayloadOk_payloadBytes ts 1 (by simp) (by decide) (by decide)
    have hparse : parse_payload (payloadBytes ts 1 [107] [118]) =
        some ⟨1, [107], [118], ts⟩ :=
      parse_payloadBytes hts (by norm_num) (by simp) (by simp) (by decide) (by decide)
    have h := readOneFrom_frame hok hparse []
    rw [List.append_nil] at h
    exact h

/-- Witness for C7 at the concrete timestamp 5. -/
theorem c7_single_append_witness :
    append ⟨headerBytes 1, 1⟩ 5 [107] [118] =
      some (⟨headerBytes 2 ++ frameBytes (payloadBytes 5 1 [107] [118]), 2⟩, 16) ∧
    (headerBytes 2 ++ frameBytes (payloadBytes 5 1 [107] [118])).length = 54 ∧
    read_one_at (headerBytes 2 ++ frameBytes (payloadBytes 5 1 [107] [118])) 16 =
      .ok ⟨1, [107], [118], 5⟩ :=
  c7_single_append 5 (by decide)

/-! ## Repeated appends (C2) -/

/-- Run a sequence of `append` calls, failing if any one fails.  Each
request is a `(timestamp, phenomenon, noumenon)` triple. -/
def appendMany : WriterState → List (Nat × List Nat × List Nat) → Option WriterState
  | s, [] => some s
  | s, (ts, ph, no) :: rs =>
    match append s ts ph no with
    | some (s', _) => appendMany s' rs
    | none => none

/-- The payloads a run of appends starting at id `id` writes. -/
def reqPayloads : Nat → List (Nat × List Nat × List Nat) → List (List Nat)
  | _, [] => []
  | id, (ts, ph, no) :: rs => payloadBytes ts id ph no :: reqPayloads (id + 1) rs

/-- Size and byte bounds on one append request: the strings are genuine
byte lists and the frame total fits the u32 length prefix. -/
def ReqOk (r : Nat × List Nat × List Nat) : Prop :=
  r.2.1.length + r.2.2.length + 32 < 2 ^ 32 ∧
    (∀ b ∈ r.2.1, b < 256) ∧ ∀ b ∈ r.2.2, b < 256

instance (r : Nat × List Nat × List Nat) : Decidable (ReqOk r) := by
  unfold ReqOk; infer_instance

theorem reqPayloads_length : ∀ (reqs : List (Nat × List Nat × List Nat)) (n : Nat),
    (reqPayloads n reqs).length = reqs.length := by
  intro reqs
  induction reqs with
  | nil => intro n; rfl
  | cons r rs ih =>
    intro n
    obtain ⟨ts, ph, no⟩ := r
    show (payloadBytes ts n ph no :: reqPayloads (n + 1) rs).length = rs.length + 1
    simp [ih]

theorem reqPayloads_ok : ∀ {reqs : List (Nat × List Nat × List Nat)} (n : Nat),
    (∀ r ∈ reqs, ReqOk r) → ∀ p ∈ reqPayloads n reqs, PayloadOk p := by
  intro reqs
  induction reqs with
  | nil => intro n _ p hp; simp [reqPayloads] at hp
  | cons r rs ih =>
    intro n hok p hp
    obtain ⟨ts, ph, no⟩ := r
    rw [show reqPayloads n ((ts, ph, no) :: rs) =
      payloadBytes ts n ph no :: reqPayloads (n + 1) rs from rfl] at hp
    rcases List.mem_cons.mp hp with h | h
    · subst h
      obtain ⟨hfit, hphb, hnob⟩ := hok (ts, ph, no) (by simp)
      have hfit2 : ph.length + no.length + 32 < 2 ^ 32 := hfit
      exact PayloadOk_payloadBytes ts n (by omega) hphb hnob
    · exact ih (n + 1) (fun q hq => hok q (by simp [hq])) p h

theorem reqPayloads_ids : ∀ (reqs : List (Nat × List Nat × List Nat)) (n : Nat),
    n + reqs.length < 2 ^ 64 →
    (reqPayloads n reqs).map idOfPayload = List.range' n reqs.length := by
  intro reqs
  induction reqs with
  | nil => intro n _; rfl
  | cons r rs ih =>
    intro n hlt
    obtain ⟨ts, ph, no⟩ := r
    show (payloadBytes ts n ph no :: reqPayloads (n + 1) rs).map idOfPayload =
      List.range' n (rs.length + 1)
    rw [List.map_cons, idOf_payloadBytes, Nat.mod_eq_of_lt (by simp at hlt; omega)]
    rw [ih (n + 1) (by simp at hlt; omega)]
    rw [List.range'_succ]

/-- Invariant of the writer state under a run of appends: the header and
`next_id` advance in lockstep and each request stamps the id it was
appended under. -/
theorem appendMany_state : ∀ (reqs : List (Nat × List Nat × List Nat))
    (n : Nat) (ps : List (List Nat)), (∀ r ∈ reqs, ReqOk r) →
    n + reqs.length < 2 ^ 64 →
    appendMany ⟨headerBytes n ++ framesBytes ps, n⟩ reqs =
      some ⟨headerBytes (n + reqs.length) ++
              framesBytes (ps ++ reqPayloads n reqs), n + reqs.length⟩ := by
  intro reqs
  induction reqs with
  | nil =>
    intro n ps _ _
    show some _ = _
    rw [show reqPayloads n [] = [] from rfl, List.append_nil]
    simp
  | cons r rs ih =>
    intro n ps hok hlt
    obtain ⟨ts, ph, no⟩ := r
    show (match append ⟨headerBytes n ++ framesBytes ps, n⟩ ts ph no with
      | some (s', _) => appendMany s' rs
      | none => none) = _
    rw [append_state (by simp at hlt; omega)]
    show appendMany ⟨headerBytes (n + 1) ++
      framesBytes (ps ++ [payloadBytes ts n ph no]), n + 1⟩ rs = _
    rw [ih (n + 1) (ps ++ [payloadBytes ts n ph no])
      (fun q hq => hok q (by simp [hq])) (by simp at hlt; omega)]
    rw [List.append_assoc]
    rw [show [payloadBytes ts n ph no] ++ reqPayloads (n + 1) rs =
      reqPayloads n ((ts, ph, no) :: rs) from rfl]
    rw [show n + 1 + rs.length = n + (rs.length + 1) by omega]
    rfl

/-- C2: starting from a freshly created cube, any sequence of successful
appends leaves valid records whose ids are exactly `1, 2, …, k` — a
strictly increasing sequence starting at 1 — while the in-memory
`next_id` ends at `k + 1`: each append stamps the current `next_id` and
increments it by exactly one. -/
theorem c2_id_monotonicity (reqs : List (Nat × List Nat × List Nat))
    (hok : ∀ r ∈ reqs, ReqOk r) (hcnt : 1 + reqs.length < 2 ^ 64) :
    ∃ s' : WriterState,
      appendMany ⟨headerBytes 1, 1⟩ reqs = some s' ∧
      s'.next_id = 1 + reqs.length ∧
      (readFrames (s'.file.drop 16)).map idOfPayload = List.range' 1 reqs.length := by
  have h := appendMany_state reqs 1 [] hok hcnt
  rw [framesBytes_nil, List.append_nil, List.nil_append] at h
  refine ⟨_, h, rfl, ?_⟩
  show (readFrames ((headerBytes (1 + reqs.length) ++
    framesBytes (reqPayloads 1 reqs)).drop 16)).map idOfPayload = _
  rw [List.drop_left' (by simp)]
  rw [readFrames_frames_nil (reqPayloads_ok 1 hok)]
  exact reqPayloads_ids reqs 1 hcnt

/-- Witness for C2: two concrete appends from a fresh cube yield ids
`[1, 2]` and final `next_id = 3`. -/
theorem c2_id_monotonicity_witness :
    ∃ s' : WriterState,
      appendMany ⟨headerBytes 1, 1⟩ [(0, [97], [49]), (7, [98], [50])] = some s' ∧
      s'.next_id = 1 + ([(0, [97], [49]), (7, [98], [50])] :
        List (Nat × List Nat × List Nat)).length ∧
      (readFrames (s'.file.drop 16)).map idOfPayload =
        List.range' 1 ([(0, [97], [49]), (7, [98], [50])] :
          List (Nat × List Nat × List Nat)).length :=
  c2_id_monotonicity [(0, [97], [49]), (7, [98], [50])] (by decide) (by decide)

/-! ## `create` and the version field (C5) -/

/-- C5 counterexample: a well-formed 16-byte header with magic `AKLA`
but version 2 is accepted by `Writer::create` (it returns the stored
`next_id` 5), refuting the claim that any version other than 1 is
refused. -/
theorem c5_counterexample :
    create [65, 75, 76, 65, 2, 0, 5, 0, 0, 0, 0, 0, 0, 0, 0, 0] =
      .ok [65, 75, 76, 65, 2, 0, 5, 0, 0, 0, 0, 0, 0, 0, 0, 0] 5 := by decide

/-- C5 amended: opening a non-empty cube fails exactly when the file is
shorter than the 16-byte header or the magic differs from `AKLA`; the
version field is read as part of the header but never validated, so a
file with any version value opens successfully. -/
theorem c5_only_magic_checked (file : List Nat) (hne : file ≠ []) :
    create file = .err ↔ (file.length < 16 ∨ file.take 4 ≠ MAGIC) := by
  have h0 : ¬ file.length = 0 := by
    simpa [List.length_eq_zero] using hne
  unfold create
  rw [if_neg h0]
  by_cases h1 : file.length < 16
  · rw [if_pos h1]
    simp [h1]
  rw [if_neg h1]
  by_cases h2 : file.take 4 ≠ MAGIC
  · rw [if_pos h2]
    simp [h2]
  rw [if_neg h2]
  constructor
  · intro h
    exfalso
    by_cases h3 : fromLEBytes ((file.drop 6).take 8) = 0
    · rw [if_pos h3] at h; cases h
    · rw [if_neg h3] at h; cases h
  · intro h
    rcases h with h | h
    · exact absurd h h1
    · exact absurd h h2

/-- Witness for the C5 amendment at the version-2 header: the iff holds
and its right-hand side is false, so `create` succeeds. -/
theorem c5_only_magic_checked_witness :
    ([65, 75, 76, 65, 2, 0, 5, 0, 0, 0, 0, 0, 0, 0, 0, 0] : List Nat) ≠ [] ∧
    (create [65, 75, 76, 65, 2, 0, 5, 0, 0, 0, 0, 0, 0, 0, 0, 0] = .err ↔
      (([65, 75, 76, 65, 2, 0, 5, 0, 0, 0, 0, 0, 0, 0, 0, 0] : List Nat).length < 16 ∨
        ([65, 75, 76, 65, 2, 0, 5, 0, 0, 0, 0, 0, 0, 0, 0, 0] : List Nat).take 4 ≠ MAGIC)) :=
  ⟨by decide, c5_only_magic_checked _ (by decide)⟩

/-! ## Iteration stopping behaviour (C6) -/

/-- A CRC-valid 28-byte payload whose `ph_len` field (100) overruns the
payload: `read_valid_entry` accepts its frame but `parse_payload`
rejects it. -/
def badLenPayload : List Nat :=
  toLEBytes 16 0 ++ (toLEBytes 8 1 ++ (toLEBytes 2 100 ++ toLEBytes 2 0))

/-- A minimal fully valid payload with id 2 and empty strings. -/
def emptyPayload2 : List Nat := payloadBytes 0 2 [] []

/-- C6 counterexample: in a file whose first frame is CRC-valid but has
malformed payload lengths and whose second frame is fully valid,
sequential iteration does *not* stop at the malformed frame: it visits
and prints the second frame.  This refutes the claim that a frame with
malformed payload lengths (or invalid UTF-8) terminates iteration. -/
theorem c6_counterexample :
    readFrames ((headerBytes 3 ++ (frameBytes badLenPayload ++ frameBytes emptyPayload2)).drop 16) =
      [badLenPayload, emptyPayload2] ∧
    parse_payload badLenPayload = none ∧
    read_all (headerBytes 3 ++ (frameBytes badLenPayload ++ frameBytes emptyPayload2)) =
      [⟨2, [], [], 0⟩] := by decide

/-- Auxiliary: a stream whose first entry is invalid yields no frames. -/
theorem readFrames_none {rest : List Nat} (h : read_valid_entry rest = none) :
    readFrames rest = [] := by
  unfold readFrames
  cases hl : rest.length with
  | zero => rfl
  | succ k =>
    rw [scanEntries, h]
    rfl

/-- C6 amended: sequential iteration visits every frame accepted by
`read_valid_entry` and stops exactly at the first one it rejects (EOF on
the length prefix, declared length below 32, short read, or CRC
mismatch).  Frames whose CRC verifies but whose payload is malformed or
contains invalid UTF-8 are visited, skipped by the printer, and do not
stop the iteration. -/
theorem c6_iteration_stops_at_invalid_entry (hdr : List Nat) (ps : List (List Nat))
    (junk : List Nat) (h16 : hdr.length = 16) (hok : ∀ p ∈ ps, PayloadOk p)
    (hjunk : read_valid_entry junk = none) :
    readFrames ((hdr ++ (framesBytes ps ++ junk)).drop 16) = ps ∧
    read_all (hdr ++ (framesBytes ps ++ junk)) = ps.filterMap parse_payload := by
  have hdrop : (hdr ++ (framesBytes ps ++ junk)).drop 16 = framesBytes ps ++ junk :=
    List.drop_left' h16
  have hframes : readFrames (framesBytes ps ++ junk) = ps := by
    rw [readFrames_frames hok junk, readFrames_none hjunk, List.append_nil]
  refine ⟨by rw [hdrop, hframes], ?_⟩
  unfold read_all
  rw [hdrop, hframes]

/-- Witness for the C6 amendment: one CRC-valid malformed frame followed
by two junk bytes; the malformed frame is visited, nothing is printed. -/
theorem c6_iteration_stops_witness :
    readFrames ((headerBytes 2 ++ (framesBytes [badLenPayload] ++ [9, 9])).drop 16) =
      [badLenPayload] ∧
    read_all (headerBytes 2 ++ (framesBytes [badLenPayload] ++ [9, 9])) =
      ([badLenPayload].filterMap parse_payload) :=
  c6_iteration_stops_at_invalid_entry (headerBytes 2) [badLenPayload] [9, 9]
    (by decide) (by decide) (by decide)

/-! ## Header recovery (C4) -/

/-- Left fold of the running maximum over a list of ids, mirroring the
accumulator of `compute_max_id_from_file`. -/
def maxIds (ids : List Nat) : Option Nat :=
  ids.foldl (fun m i => some (m.elim i (fun x => max x i))) none

theorem entriesFor_foldl_maxId : ∀ (ps : List (List Nat)) (off : Nat)
    (acc : Option Nat), (∀ p ∈ ps, 24 ≤ p.length) →
    (entriesFor off ps).foldl
      (fun m e =>
        if 24 ≤ e.2.2.length then
          some (m.elim (idOfPayload e.2.2) (fun x => max x (idOfPayload e.2.2)))
        else m) acc =
    (ps.map idOfPayload).foldl (fun m i => some (m.elim i (fun x => max x i))) acc := by
  intro ps
  induction ps with
  | nil => intro off acc _; rfl
  | cons p t ih =>
    intro off acc hlen
    show List.foldl _ _ ((off, p.length + 4, p) :: entriesFor (off + 8 + p.length) t) = _
    rw [List.foldl_cons, List.map_cons, List.foldl_cons]
    rw [if_pos (hlen p (by simp))]
    exact ih (off + 8 + p.length) _ (fun q hq => hlen q (by simp [hq]))

/-- `compute_max_id_from_file` on a well-formed cube is the running
maximum of the ids of its frames. -/
theorem compute_max_id_frames {hdr : List Nat} {ps : List (List Nat)}
    (h16 : hdr.length = 16) (hok : ∀ p ∈ ps, PayloadOk p) :
    compute_max_id_from_file (hdr ++ framesBytes ps) = maxIds (ps.map idOfPayload) := by
  unfold compute_max_id_from_file entriesOf
  rw [List.drop_left' h16]
  have hscan := scanEntries_frames ps 16 [] (hdr ++ framesBytes ps).length hok
    (by simp [h16])
  rw [List.append_nil] at hscan
  rw [hscan]
  rw [show scanEntries ([] : List Nat).length (16 + (framesBytes ps).length) [] = []
    from rfl]
  rw [List.append_nil]
  exact entriesFor_foldl_maxId ps 16 none
    (fun p hp => le_trans (by norm_num) (hok p hp).1)

/-- C4 counterexample: with `NEXT_ID` zeroed and a single valid record
carrying id `u64::MAX`, reopening recovers `next_id = 1`, not
`max(id) + 1` (which does not fit u64): `checked_add` overflows and the
code falls back to `unwrap_or(1)`. -/
theorem c4_counterexample :
    idOfPayload (payloadBytes 0 (2 ^ 64 - 1) [] []) = 2 ^ 64 - 1 ∧
    create (headerBytes 0 ++ framesBytes [payloadBytes 0 (2 ^ 64 - 1) [] []]) =
      .ok (writeAt (headerBytes 0 ++ framesBytes [payloadBytes 0 (2 ^ 64 - 1) [] []])
            6 (toLEBytes 8 1)) 1 ∧
    (2 ^ 64 - 1) + 1 ≠ 1 := by decide

/-- C4 amended: opening a non-empty cube whose header `NEXT_ID` field
reads zero scans the valid frames and sets (and persists at offset 6)
`next_id = max(id) + 1` — falling back to 1 when no valid record exists
*or* when `max(id) + 1` overflows u64 (`checked_add … unwrap_or(1)`). -/
theorem c4_header_recovery (hdr : List Nat) (ps : List (List Nat))
    (h16 : hdr.length = 16) (hmagic : hdr.take 4 = MAGIC)
    (hzero : (hdr.drop 6).take 8 = toLEBytes 8 0)
    (hok : ∀ p ∈ ps, PayloadOk p) :
    create (hdr ++ framesBytes ps) =
      .ok (writeAt (hdr ++ framesBytes ps) 6
            (toLEBytes 8 (recoveredNextId (maxIds (ps.map idOfPayload)))))
          (recoveredNextId (maxIds (ps.map idOfPayload))) := by
  have hlen : (hdr ++ framesBytes ps).length = 16 + (framesBytes ps).length := by
    simp [h16]
  have htake4 : (hdr ++ framesBytes ps).take 4 = MAGIC := by
    rw [List.take_append_of_le_length (by omega), hmagic]
  have hnid : fromLEBytes (((hdr ++ framesBytes ps).drop 6).take 8) = 0 := by
    rw [List.drop_append_of_le_length (by omega)]
    rw [List.take_append_of_le_length (by rw [List.length_drop]; omega)]
    rw [hzero, fromLEBytes_toLEBytes]
    simp
  unfold create
  rw [if_neg (by omega), if_neg (by omega), if_neg (by simp [htake4]), if_pos hnid]
  rw [compute_max_id_frames h16 hok]

/-- Witness for the C4 amendment: zeroed header plus one record with
id 7 recovers `next_id = 8` and persists it. -/
theorem c4_header_recovery_witness :
    create (headerBytes 0 ++ framesBytes [payloadBytes 3 7 [] []]) =
      .ok (writeAt (headerBytes 0 ++ framesBytes [payloadBytes 3 7 [] []]) 6
            (toLEBytes 8 (recoveredNextId (maxIds ([payloadBytes 3 7 [] []].map idOfPayload)))))
          (recoveredNextId (maxIds ([payloadBytes 3 7 [] []].map idOfPayload))) :=
  c4_header_recovery (headerBytes 0) [payloadBytes 3 7 [] []]
    (by decide) (by decide) (by decide) (by decide)

/-! ## `read_one_at` partiality (C9) -/

theorem lenOf_frameBytes {p : List Nat} (hfit : p.length + 4 < 2 ^ 32) :
    lenOf (frameBytes p) = p.length + 4 := by
  have h := lenOf_frame hfit []
  rwa [List.append_nil] at h

theorem payloadOf_frameBytes {p : List Nat} (hfit : p.length + 4 < 2 ^ 32) :
    payloadOf (frameBytes p) = p := by
  have h := payloadOf_frame hfit []
  rwa [List.append_nil] at h

theorem crcbOf_frameBytes {p : List Nat} (hfit : p.length + 4 < 2 ^ 32) :
    crcbOf (frameBytes p) = toLEBytes 4 (crc32 p) := by
  have h := crcbOf_frame hfit []
  rwa [List.append_nil] at h

/-- On a CRC-valid frame with a well-formed envelope, `read_one_at`
reduces to the unchecked parse of the payload. -/
theorem readOneFrom_frameBytes_unfold {p : List Nat} (hok : PayloadOk p) :
    readOneFrom (frameBytes p) =
      (if p.length < 28 + phLenOf p then .panic
       else if ¬ utf8Valid (phOf p) then .panic
       else if p.length < 28 + phLenOf p + noLenOf p then .panic
       else if ¬ utf8Valid (noOf p) then .panic
       else .ok ⟨idOfPayload p, phOf p, noOf p, tsOf p⟩) := by
  obtain ⟨h28, hfit, hbytes⟩ := hok
  have hcrc : fromLEBytes (crcbOf (frameBytes p)) = crc32 p := by
    rw [crcbOf_frameBytes hfit]
    exact fromLEBytes_toLEBytes_of_lt (by simpa using crc32_lt hbytes)
  unfold readOneFrom
  rw [lenOf_frameBytes hfit, payloadOf_frameBytes hfit, hcrc]
  rw [if_neg (by simp), if_neg (by simp; omega), if_neg (by omega),
    if_neg (by simp), if_neg (by omega)]

/-- C9: `read_one_at` is not total on CRC-valid input.  It panics
(rather than returning an `io::Error`) in each of these situations,
while sequential parsing handles the same frame gracefully:
(1) a CRC-valid frame whose `ph_len`/`no_len` extend past the payload
end (sequential `parse_payload` returns `None`);
(2) a CRC-valid frame whose length prefix is below the 32-byte minimum
(sequential `read_valid_entry` returns `None`);
(3) raw bytes whose length prefix is below 4 (usize underflow in
`split_at(len - 4)`);
(4) a CRC-valid in-bounds frame whose phenomenon bytes are invalid
UTF-8 (`unwrap` of a failed conversion). -/
theorem c9_read_one_at_panics :
    (∀ p : List Nat, PayloadOk p → p.length < 28 + phLenOf p + noLenOf p →
      read_one_at (frameBytes p) 0 = .panic ∧ parse_payload p = none) ∧
    (∀ p : List Nat, (∀ b ∈ p, b < 256) → p.length < 28 →
      read_one_at (frameBytes p) 0 = .panic ∧ read_valid_entry (frameBytes p) = none) ∧
    (∀ (v : Nat) (junk : List Nat), v < 4 → v ≤ junk.length →
      read_one_at (toLEBytes 4 v ++ junk) 0 = .panic) ∧
    (∀ p : List Nat, PayloadOk p → 28 + phLenOf p + noLenOf p ≤ p.length →
      utf8Valid (phOf p) = false →
      read_one_at (frameBytes p) 0 = .panic ∧ parse_payload p = none) := by
  refine ⟨?_, ?_, ?_, ?_⟩
  · intro p hok hover
    have h28 := hok.1
    constructor
    · show readOneFrom ((frameBytes p).drop 0) = .panic
      rw [List.drop_zero, readOneFrom_frameBytes_unfold hok]
      by_cases hA : p.length < 28 + phLenOf p
      · rw [if_pos hA]
      rw [if_neg hA]
      by_cases hB : utf8Valid (phOf p)
      · rw [if_neg (by simp [hB]), if_pos (by omega)]
      · rw [if_pos (by simp [hB])]
    · unfold parse_payload
      rw [if_neg (by omega), if_neg (by omega)]
  · intro p hbytes hshort
    have hfit : p.length + 4 < 2 ^ 32 := by omega
    have hcrc : fromLEBytes (crcbOf (frameBytes p)) = crc32 p := by
      rw [crcbOf_frameBytes hfit]
      exact fromLEBytes_toLEBytes_of_lt (by simpa using crc32_lt hbytes)
    constructor
    · show readOneFrom ((frameBytes p).drop 0) = .panic
      rw [List.drop_zero]
      unfold readOneFrom
      rw [lenOf_frameBytes hfit, payloadOf_frameBytes hfit, hcrc]
      rw [if_neg (by simp), if_neg (by simp; omega), if_neg (by omega),
        if_neg (by simp), if_pos (by omega)]
    · unfold read_valid_entry
      rw [lenOf_frameBytes hfit]
      rw [if_neg (by simp), if_pos (by omega)]
  · intro v junk hv hjunk
    show readOneFrom ((toLEBytes 4 v ++ junk).drop 0) = .panic
    rw [List.drop_zero]
    have hlen : lenOf (toLEBytes 4 v ++ junk) = v := by
      unfold lenOf
      rw [List.take_left' (by simp)]
      exact fromLEBytes_toLEBytes_of_lt (by norm_num; omega)
    unfold readOneFrom
    rw [hlen]
    rw [if_neg (by simp), if_neg (by simp; omega), if_pos hv]
  · intro p hok hin hbad
    constructor
    · show readOneFrom ((frameBytes p).drop 0) = .panic
      rw [List.drop_zero, readOneFrom_frameBytes_unfold hok]
      rw [if_neg (by omega), if_pos (by simp [hbad])]
    · unfold parse_payload
      rw [if_neg (by omega), if_pos hin, if_neg (by simp [hbad])]

/-- Witness for C9, part (1): `read_one_at` panics on the CRC-valid
frame of `badLenPayload` while `parse_payload` returns `None` on it. -/
theorem c9_read_one_at_panics_witness :
    read_one_at (frameBytes badLenPayload) 0 = .panic ∧
    parse_payload badLenPayload = none :=
  c9_read_one_at_panics.1 badLenPayload (by decide) (by decide)

/-! ## Oversized strings (C10) -/

theorem noOf_payloadBytes (ts id : Nat) (ph no : List Nat) :
    noOf (payloadBytes ts id ph no) =
      (ph.drop (ph.length % 2 ^ 16) ++ no).take (no.length % 2 ^ 16) := by
  unfold noOf
  rw [phLenOf_payloadBytes, noLenOf_payloadBytes]
  have h : (payloadBytes ts id ph no).drop (28 + ph.length % 2 ^ 16) =
      ((payloadBytes ts id ph no).drop 28).drop (ph.length % 2 ^ 16) := by
    rw [List.drop_drop]
  rw [h, drop28_payloadBytes, List.drop_append_of_le_length (Nat.mod_le _ _)]

/-- A phenomenon of 65 537 bytes that is valid UTF-8 (one two-byte
scalar followed by ASCII). -/
def phBig : List Nat := 195 :: 128 :: List.replicate 65535 97

theorem phBig_length : phBig.length = 65537 := by
  unfold phBig
  rw [List.length_cons, List.length_cons, List.length_replicate]

theorem phBig_bytes : ∀ b ∈ phBig, b < 256 := by
  intro b hb
  simp only [phBig, List.mem_cons] at hb
  rcases hb with h | h | h
  · omega
  · omega
  · have := List.eq_of_mem_replicate h
    omega

/-- C10 counterexample: appending the 65 537-byte `phBig` wraps its
length field to 1, and the truncated one-byte slice `[0xC3]` is invalid
UTF-8, so the CRC-valid frame does not parse at all — the round trip
fails instead of returning different strings, refuting the claim as
stated. -/
theorem c10_counterexample :
    phBig.length = 65537 ∧
    phLenOf (payloadBytes 0 1 phBig []) = 1 ∧
    read_valid_entry (frameBytes (payloadBytes 0 1 phBig [])) =
      some ((payloadBytes 0 1 phBig []).length + 4, payloadBytes 0 1 phBig []) ∧
    parse_payload (payloadBytes 0 1 phBig []) = none := by
  have hok : PayloadOk (payloadBytes 0 1 phBig []) := by
    refine PayloadOk_payloadBytes 0 1 ?_ phBig_bytes (by simp)
    rw [phBig_length]
    norm_num
  refine ⟨phBig_length, ?_, ?_, ?_⟩
  · rw [phLenOf_payloadBytes, phBig_length]
    decide
  · have h := read_valid_entry_frame hok []
    rwa [List.append_nil] at h
  · unfold parse_payload
    have hlen := payloadBytes_length 0 1 phBig []
    rw [phBig_length] at hlen
    have hph : phOf (payloadBytes 0 1 phBig []) = [195] := by
      rw [phOf_payloadBytes, phBig_length]
      rfl
    have hphlen : phLenOf (payloadBytes 0 1 phBig []) = 1 := by
      rw [phLenOf_payloadBytes, phBig_length]
      decide
    have hnolen : noLenOf (payloadBytes 0 1 phBig []) = 0 := by
      rw [noLenOf_payloadBytes]
      rfl
    have hnoOf : noOf (payloadBytes 0 1 phBig []) = [] := by
      rw [noOf_payloadBytes]
      rw [show ([] : List Nat).length % 2 ^ 16 = 0 from rfl]
      rw [List.take_zero]
    rw [if_neg (by omega), if_pos (by rw [hphlen, hnolen]; omega)]
    rw [if_neg (by rw [hph, hnoOf]; decide)]


/-- C10 amended: `append` enforces no 65 535-byte bound.  An oversized
phenomenon or noumenon is written in full into the frame, but the
length fields are stored reduced mod `2 ^ 16`, so the resulting frame
is CRC-valid (accepted by `read_valid_entry`) yet never parses back to
the appended pair: `parse_payload` returns either a *different* pair of
strings or — when the truncated slice is invalid UTF-8 — nothing at
all.  Either way the round trip does not return the appended data. -/
theorem c10_oversized_append (s : WriterState) (ts : Nat) (ph no : List Nat)
    (hbig : 65535 < ph.length ∨ 65535 < no.length)
    (hfit : ph.length + no.length + 32 < 2 ^ 32)
    (hphb : ∀ b ∈ ph, b < 256) (hnob : ∀ b ∈ no, b < 256)
    (hid : s.next_id + 1 < 2 ^ 64) :
    append s ts ph no = some
      (⟨writeAt (s.file ++ frameBytes (payloadBytes ts s.next_id ph no)) 6
          (toLEBytes 8 (s.next_id + 1)), s.next_id + 1⟩, s.file.length) ∧
    (payloadBytes ts s.next_id ph no).length = 28 + ph.length + no.length ∧
    phLenOf (payloadBytes ts s.next_id ph no) = ph.length % 2 ^ 16 ∧
    noLenOf (payloadBytes ts s.next_id ph no) = no.length % 2 ^ 16 ∧
    read_valid_entry (frameBytes (payloadBytes ts s.next_id ph no)) =
      some ((payloadBytes ts s.next_id ph no).length + 4,
            payloadBytes ts s.next_id ph no) ∧
    ∀ ev : Event, parse_payload (payloadBytes ts s.next_id ph no) = some ev →
      (ev.phenomenon, ev.noumenon) ≠ (ph, no) := by
  have hok : PayloadOk (payloadBytes ts s.next_id ph no) :=
    PayloadOk_payloadBytes ts s.next_id (by omega) hphb hnob
  refine ⟨append_eq hid, payloadBytes_length ts s.next_id ph no,
    phLenOf_payloadBytes ts s.next_id ph no, noLenOf_payloadBytes ts s.next_id ph no,
    ?_, ?_⟩
  · have h := read_valid_entry_frame hok []
    rwa [List.append_nil] at h
  · intro ev hp hcontra
    obtain ⟨-, -, -, -, hev⟩ := parse_payload_some hp
    have hph : ev.phenomenon = ph.take (ph.length % 2 ^ 16) := by
      rw [hev, phOf_payloadBytes]
    have hno : ev.noumenon =
        (ph.drop (ph.length % 2 ^ 16) ++ no).take (no.length % 2 ^ 16) := by
      rw [hev, noOf_payloadBytes]
    rw [Prod.mk.injEq] at hcontra
    obtain ⟨hc1, hc2⟩ := hcontra
    rw [hph] at hc1
    have hle : ph.length % 2 ^ 16 < 2 ^ 16 := Nat.mod_lt _ (by norm_num)
    have hlen1 : (ph.take (ph.length % 2 ^ 16)).length = ph.length % 2 ^ 16 :=
      List.length_take_of_le (Nat.mod_le _ _)
    have hphsmall : ph.length < 2 ^ 16 := by
      by_contra hge
      push_neg at hge
      have : ph.length % 2 ^ 16 < ph.length := by
        calc ph.length % 2 ^ 16 < 2 ^ 16 := hle
        _ ≤ ph.length := hge
      have := congrArg List.length hc1
      rw [hlen1] at this
      omega
    have hmodeq : ph.length % 2 ^ 16 = ph.length := Nat.mod_eq_of_lt hphsmall
    have hnobig : 65535 < no.length := by
      rcases hbig with h | h
      · exfalso; omega
      · exact h
    rw [hno, hmodeq, List.drop_length, List.nil_append] at hc2
    have hlen2 : (no.take (no.length % 2 ^ 16)).length = no.length % 2 ^ 16 :=
      List.length_take_of_le (Nat.mod_le _ _)
    have : no.length % 2 ^ 16 < no.length := by
      calc no.length % 2 ^ 16 < 2 ^ 16 := Nat.mod_lt _ (by norm_num)
      _ ≤ no.length := by omega
    have := congrArg List.length hc2
    rw [hlen2] at this
    omega

/-- Witness for the C10 amendment with the oversized `phBig`. -/
theorem c10_oversized_append_witness :
    append ⟨headerBytes 1, 1⟩ 0 phBig [] = some
      (⟨writeAt ((⟨headerBytes 1, 1⟩ : WriterState).file ++
          frameBytes (payloadBytes 0 1 phBig [])) 6
          (toLEBytes 8 2), 2⟩, (⟨headerBytes 1, 1⟩ : WriterState).file.length) ∧
    (payloadBytes 0 1 phBig []).length = 28 + phBig.length + ([] : List Nat).length ∧
    phLenOf (payloadBytes 0 1 phBig []) = phBig.length % 2 ^ 16 ∧
    noLenOf (payloadBytes 0 1 phBig []) = ([] : List Nat).length % 2 ^ 16 ∧
    read_valid_entry (frameBytes (payloadBytes 0 1 phBig [])) =
      some ((payloadBytes 0 1 phBig []).length + 4, payloadBytes 0 1 phBig []) ∧
    ∀ ev : Event, parse_payload (payloadBytes 0 1 phBig []) = some ev →
      (ev.phenomenon, ev.noumenon) ≠ (phBig, ([] : List Nat)) :=
  c10_oversized_append ⟨headerBytes 1, 1⟩ 0 phBig []
    (Or.inl (by rw [phBig_length]; norm_num))
    (by rw [phBig_length]; norm_num)
    phBig_bytes (by simp) (by norm_num)

/-! ## CRC-32 single-bit error detection (C3) -/

theorem xor_right_cancel {a b c : Nat} (h : a ^^^ c = b ^^^ c) : a = b := by
  have h2 := congrArg (fun x => x ^^^ c) h
  simpa [Nat.xor_assoc, Nat.xor_self, Nat.xor_zero] using h2

theorem xor_left_cancel {a b c : Nat} (h : c ^^^ a = c ^^^ b) : a = b := by
  have h2 := congrArg (fun x => c ^^^ x) h
  simpa [← Nat.xor_assoc, Nat.xor_self, Nat.zero_xor] using h2

theorem xor_two_pow_ne (x k : Nat) : x ^^^ 2 ^ k ≠ x := by
  intro h
  have h0 : (x ^^^ 2 ^ k) ^^^ x = 0 := by rw [h, Nat.xor_self]
  have h1 : (x ^^^ 2 ^ k) ^^^ x = 2 ^ k := by
    rw [Nat.xor_comm x (2 ^ k), Nat.xor_assoc, Nat.xor_self, Nat.xor_zero]
  rw [h1] at h0
  exact (pow_pos (by norm_num : (0 : ℕ) < 2) k).ne' h0

theorem CRC_POLY_testBit31 : CRC_POLY.testBit 31 = true := by decide

/-- The CRC bit step is injective on 32-bit states: the polynomial has
its top bit set, so the discarded low bit is recoverable from bit 31 of
the result. -/
theorem crcRound_inj {a b : Nat} (ha : a < 2 ^ 32) (hb : b < 2 ^ 32)
    (h : crcRound a = crcRound b) : a = b := by
  unfold crcRound at h
  rcases Nat.mod_two_eq_zero_or_one a with ha2 | ha2 <;>
    rcases Nat.mod_two_eq_zero_or_one b with hb2 | hb2
  · rw [if_neg (by omega), if_neg (by omega)] at h
    rw [Nat.shiftRight_one, Nat.shiftRight_one] at h
    omega
  · rw [if_neg (by omega), if_pos hb2] at h
    exfalso
    have h31 := congrArg (fun x => x.testBit 31) h
    simp only [Nat.testBit_xor] at h31
    rw [Nat.shiftRight_one, Nat.shiftRight_one, CRC_POLY_testBit31] at h31
    rw [Nat.testBit_lt_two_pow (by omega), Nat.testBit_lt_two_pow (by omega)] at h31
    simp at h31
  · rw [if_pos ha2, if_neg (by omega)] at h
    exfalso
    have h31 := congrArg (fun x => x.testBit 31) h
    simp only [Nat.testBit_xor] at h31
    rw [Nat.shiftRight_one, Nat.shiftRight_one, CRC_POLY_testBit31] at h31
    rw [Nat.testBit_lt_two_pow (by omega), Nat.testBit_lt_two_pow (by omega)] at h31
    simp at h31
  · rw [if_pos ha2, if_pos hb2] at h
    have h2 := xor_right_cancel h
    rw [Nat.shiftRight_one, Nat.shiftRight_one] at h2
    omega

theorem crcRounds_inj {n a b : Nat} (ha : a < 2 ^ 32) (hb : b < 2 ^ 32)
    (h : crcRounds n a = crcRounds n b) : a = b := by
  induction n generalizing a b with
  | zero => exact h
  | succ n ih => exact crcRound_inj ha hb (ih (crcRound_lt ha) (crcRound_lt hb) h)

theorem crcByte_inj {c1 c2 b : Nat} (h1 : c1 < 2 ^ 32) (h2 : c2 < 2 ^ 32)
    (hb : b < 2 ^ 32) (h : crcByte c1 b = crcByte c2 b) : c1 = c2 := by
  unfold crcByte at h
  exact xor_right_cancel
    (crcRounds_inj (Nat.xor_lt_two_pow h1 hb) (Nat.xor_lt_two_pow h2 hb) h)

theorem crcLoop_inj : ∀ (data : List Nat), (∀ x ∈ data, x < 256) →
    ∀ {c1 c2 : Nat}, c1 < 2 ^ 32 → c2 < 2 ^ 32 →
    crcLoop c1 data = crcLoop c2 data → c1 = c2 := by
  intro data
  induction data with
  | nil => intro _ c1 c2 _ _ h; exact h
  | cons x t ih =>
    intro hd c1 c2 h1 h2 h
    have hx : x < 256 := hd x (by simp)
    have hs := ih (fun y hy => hd y (by simp [hy]))
      (crcByte_lt h1 hx) (crcByte_lt h2 hx) h
    exact crcByte_inj h1 h2 (by omega) hs

/-- Flip bit `k` of the byte at index `i`. -/
def flipBitAt (l : List Nat) (i k : Nat) : List Nat :=
  l.set i (l.getD i 0 ^^^ 2 ^ k)

@[simp] theorem flipBitAt_length (l : List Nat) (i k : Nat) :
    (flipBitAt l i k).length = l.length := by
  simp [flipBitAt]

theorem flipBitAt_bytes {l : List Nat} (h : ∀ b ∈ l, b < 256) {i k : Nat}
    (hk : k < 8) : ∀ b ∈ flipBitAt l i k, b < 256 := by
  intro b hb
  rcases List.mem_or_eq_of_mem_set hb with hmem | heq
  · exact h b hmem
  · subst heq
    rcases Nat.lt_or_ge i l.length with hi | hi
    · have h1 : l.getD i 0 < 256 := by
        rw [List.getD_eq_getElem l 0 hi]
        exact h _ (List.getElem_mem hi)
      have h2 : 2 ^ k ≤ 2 ^ 7 := Nat.pow_le_pow_right (by norm_num) (by omega)
      exact Nat.xor_lt_two_pow (by omega) (show 2 ^ k < 2 ^ 8 by omega)
    · have h1 : l.getD i 0 = 0 := by
        rw [List.getD_eq_getElem?_getD, List.getElem?_eq_none (by simpa using hi)]
        rfl
      rw [h1, Nat.zero_xor]
      have h2 : 2 ^ k ≤ 2 ^ 7 := Nat.pow_le_pow_right (by norm_num) (by omega)
      omega

theorem flipBitAt_append_right {A B : List Nat} {i : Nat} (h : A.length ≤ i) (k : Nat) :
    flipBitAt (A ++ B) i k = A ++ flipBitAt B (i - A.length) k := by
  unfold flipBitAt
  rw [List.getD_append_right A B 0 i h, List.set_append_right _ _ h]

theorem flipBitAt_append_left {A B : List Nat} {i : Nat} (h : i < A.length) (k : Nat) :
    flipBitAt (A ++ B) i k = flipBitAt A i k ++ B := by
  unfold flipBitAt
  rw [List.getD_append A B 0 i h, List.set_append_left _ _ h]

theorem flipBitAt_ne {l : List Nat} {i : Nat} (hi : i < l.length) (k : Nat) :
    flipBitAt l i k ≠ l := by
  intro h
  have hget := congrArg (fun x => x.getD i 0) h
  simp only [flipBitAt] at hget
  rw [List.getD_eq_getElem?_getD, List.getElem?_set_self (by simpa using hi)] at hget
  have : l.getD i 0 ^^^ 2 ^ k = l.getD i 0 := hget
  exact xor_two_pow_ne _ k this

theorem crcLoop_flip_ne : ∀ (p : List Nat), (∀ x ∈ p, x < 256) →
    ∀ (i : Nat), i < p.length → ∀ (k : Nat), k < 8 → ∀ (c : Nat), c < 2 ^ 32 →
    crcLoop c (flipBitAt p i k) ≠ crcLoop c p := by
  intro p
  induction p with
  | nil =>
    intro _ i hi
    simp at hi
  | cons x t ih =>
    intro hb i hi k hk c hc heq
    have hx : x < 256 := hb x (by simp)
    cases i with
    | zero =>
      rw [show flipBitAt (x :: t) 0 k = (x ^^^ 2 ^ k) :: t from rfl] at heq
      have h2 : 2 ^ k ≤ 2 ^ 7 := Nat.pow_le_pow_right (by norm_num) (by omega)
      have hxk : x ^^^ 2 ^ k < 256 :=
        Nat.xor_lt_two_pow (show x < 2 ^ 8 by omega) (show 2 ^ k < 2 ^ 8 by omega)
      have hs : crcByte c (x ^^^ 2 ^ k) = crcByte c x :=
        crcLoop_inj t (fun y hy => hb y (by simp [hy]))
          (crcByte_lt hc hxk) (crcByte_lt hc hx) heq
      unfold crcByte at hs
      have h3 := crcRounds_inj (Nat.xor_lt_two_pow hc (by omega))
        (Nat.xor_lt_two_pow hc (by omega)) hs
      exact xor_two_pow_ne x k (xor_left_cancel h3)
    | succ i =>
      rw [show flipBitAt (x :: t) (i + 1) k = x :: flipBitAt t i k from rfl] at heq
      exact ih (fun y hy => hb y (by simp [hy])) i (by simpa using hi) k hk
        (crcByte c x) (crcByte_lt hc hx) heq

/-- Flipping any single bit of a byte list changes its CRC-32. -/
theorem crc32_flip_ne {p : List Nat} (hb : ∀ x ∈ p, x < 256) {i k : Nat}
    (hi : i < p.length) (hk : k < 8) : crc32 (flipBitAt p i k) ≠ crc32 p := by
  unfold crc32
  intro h
  exact crcLoop_flip_ne p hb i hi k hk 0xFFFFFFFF (by norm_num) (xor_right_cancel h)

/-- Accessor values on a frame-shaped stream whose CRC field is
arbitrary. -/
theorem pseudo_accessors {q crcb : List Nat} (hfit : q.length + 4 < 2 ^ 32)
    (hc4 : crcb.length = 4) (rest : List Nat) :
    lenOf ((toLEBytes 4 (q.length + 4) ++ (q ++ crcb)) ++ rest) = q.length + 4 ∧
    payloadOf ((toLEBytes 4 (q.length + 4) ++ (q ++ crcb)) ++ rest) = q ∧
    crcbOf ((toLEBytes 4 (q.length + 4) ++ (q ++ crcb)) ++ rest) = crcb := by
  have hassoc : (toLEBytes 4 (q.length + 4) ++ (q ++ crcb)) ++ rest =
      toLEBytes 4 (q.length + 4) ++ ((q ++ crcb) ++ rest) := by
    rw [List.append_assoc]
  have hlen : lenOf ((toLEBytes 4 (q.length + 4) ++ (q ++ crcb)) ++ rest) =
      q.length + 4 := by
    unfold lenOf
    rw [hassoc, List.take_left' (by simp)]
    exact fromLEBytes_toLEBytes_of_lt (by simpa using hfit)
  have hentry : entryOf ((toLEBytes 4 (q.length + 4) ++ (q ++ crcb)) ++ rest) =
      q ++ crcb := by
    unfold entryOf
    rw [hlen, hassoc, List.drop_left' (by simp)]
    exact List.take_left' (by simp [hc4])
  refine ⟨hlen, ?_, ?_⟩
  · unfold payloadOf
    rw [hlen, hentry]
    simp only [Nat.add_sub_cancel]
    exact List.take_left' rfl
  · unfold crcbOf
    rw [hlen, hentry]
    simp only [Nat.add_sub_cancel]
    exact List.drop_left' rfl

/-- A frame-shaped stream whose stored CRC does not match the CRC of its
payload stops sequential iteration. -/
theorem read_valid_entry_pseudo_none {q crcb : List Nat} (h28 : 28 ≤ q.length)
    (hfit : q.length + 4 < 2 ^ 32) (hc4 : crcb.length = 4)
    (hne : crc32 q ≠ fromLEBytes crcb) (rest : List Nat) :
    read_valid_entry ((toLEBytes 4 (q.length + 4) ++ (q ++ crcb)) ++ rest) = none := by
  obtain ⟨hlen, hpay, hcrc⟩ := pseudo_accessors hfit hc4 rest
  have htot : ((toLEBytes 4 (q.length + 4) ++ (q ++ crcb)) ++ rest).length =
      q.length + 8 + rest.length := by
    simp [hc4]
    omega
  unfold read_valid_entry
  rw [hlen, hpay, hcrc]
  rw [if_neg (by omega), if_neg (by omega), if_neg (by omega), if_neg hne]

/-- The same mismatching stream makes `read_one_at` fail with
`InvalidData`. -/
theorem readOneFrom_pseudo_ioErr {q crcb : List Nat} (h28 : 28 ≤ q.length)
    (hfit : q.length + 4 < 2 ^ 32) (hc4 : crcb.length = 4)
    (hne : crc32 q ≠ fromLEBytes crcb) (rest : List Nat) :
    readOneFrom ((toLEBytes 4 (q.length + 4) ++ (q ++ crcb)) ++ rest) = .ioErr := by
  obtain ⟨hlen, hpay, hcrc⟩ := pseudo_accessors hfit hc4 rest
  have htot : ((toLEBytes 4 (q.length + 4) ++ (q ++ crcb)) ++ rest).length =
      q.length + 8 + rest.length := by
    simp [hc4]
    omega
  unfold readOneFrom
  rw [hlen, hpay, hcrc]
  rw [if_neg (by omega), if_neg (by omega), if_neg (by omega), if_pos hne]

/-- Flipping one bit of a frame's payload or CRC region turns it into a
frame-shaped stream whose stored CRC no longer matches its payload. -/
theorem flip_frame_shape {p : List Nat} (hok : PayloadOk p) {i k : Nat}
    (hi4 : 4 ≤ i) (hi : i < 8 + p.length) (hk : k < 8) :
    ∃ q crcb : List Nat,
      flipBitAt (frameBytes p) i k = toLEBytes 4 (q.length + 4) ++ (q ++ crcb) ∧
      q.length = p.length ∧ crcb.length = 4 ∧ (∀ b ∈ q, b < 256) ∧
      crc32 q ≠ fromLEBytes crcb := by
  obtain ⟨h28, hfit, hbytes⟩ := hok
  have hcrclt : crc32 p < 2 ^ 32 := crc32_lt hbytes
  have hsplit : frameBytes p =
      toLEBytes 4 (p.length + 4) ++ (p ++ toLEBytes 4 (crc32 p)) := rfl
  rcases Nat.lt_or_ge (i - 4) p.length with hcase | hcase
  · -- bit flipped inside the payload
    refine ⟨flipBitAt p (i - 4) k, toLEBytes 4 (crc32 p), ?_, by simp, by simp,
      flipBitAt_bytes hbytes hk, ?_⟩
    · rw [hsplit, flipBitAt_append_right (by simp; omega) k]
      rw [show i - (toLEBytes 4 (p.length + 4)).length = i - 4 by simp]
      rw [flipBitAt_append_left hcase k]
      rw [show (flipBitAt p (i - 4) k).length = p.length by simp]
    · rw [fromLEBytes_toLEBytes_of_lt (by simpa using hcrclt)]
      exact crc32_flip_ne hbytes hcase hk
  · -- bit flipped inside the CRC field
    refine ⟨p, flipBitAt (toLEBytes 4 (crc32 p)) (i - 4 - p.length) k, ?_, rfl,
      by simp, hbytes, ?_⟩
    · rw [hsplit, flipBitAt_append_right (by simp; omega) k]
      rw [show i - (toLEBytes 4 (p.length + 4)).length = i - 4 by simp]
      rw [flipBitAt_append_right (by omega) k]
    · intro hcontra
      have hmlt : i - 4 - p.length < (toLEBytes 4 (crc32 p)).length := by
        simp
        omega
      have horig : fromLEBytes (toLEBytes 4 (crc32 p)) = crc32 p :=
        fromLEBytes_toLEBytes_of_lt (by simpa using hcrclt)
      have heq : flipBitAt (toLEBytes 4 (crc32 p)) (i - 4 - p.length) k =
          toLEBytes 4 (crc32 p) :=
        fromLEBytes_inj (by simp)
          (flipBitAt_bytes (toLEBytes_lt 4 (crc32 p)) hk)
          (toLEBytes_lt 4 (crc32 p)) (by rw [← hcontra, horig])
      exact flipBitAt_ne hmlt k heq

theorem frames_split {ps : List (List Nat)} {j : Nat} (hj : j < ps.length) :
    framesBytes ps = framesBytes (ps.take j) ++
      (frameBytes (ps.getD j []) ++ framesBytes (ps.drop (j + 1))) := by
  conv_lhs => rw [← List.take_append_drop j ps]
  rw [framesBytes_append]
  congr 1
  rw [List.drop_eq_getElem_cons hj, ← List.getD_eq_getElem ps [] hj, framesBytes_cons]

/-- C3: in a well-formed cube, flipping any single bit of frame `j`'s
payload bytes or CRC bytes makes sequential iteration stop exactly at
frame `j` (all `j` earlier frames are still read back intact and
`read_valid_entry` rejects the corrupted frame), and makes
`read_one_at` at frame `j`'s offset fail with an `io::Error`
(CRC mismatch). -/
theorem c3_crc_detection (hdr : List Nat) (ps : List (List Nat)) (j i k : Nat)
    (h16 : hdr.length = 16) (hok : ∀ p ∈ ps, PayloadOk p) (hj : j < ps.length)
    (hi4 : 4 ≤ i) (hi : i < 8 + (ps.getD j []).length) (hk : k < 8) :
    readFrames ((flipBitAt (hdr ++ framesBytes ps)
        (16 + (framesBytes (ps.take j)).length + i) k).drop 16) = ps.take j ∧
    read_valid_entry ((flipBitAt (hdr ++ framesBytes ps)
        (16 + (framesBytes (ps.take j)).length + i) k).drop
        (16 + (framesBytes (ps.take j)).length)) = none ∧
    read_one_at (flipBitAt (hdr ++ framesBytes ps)
        (16 + (framesBytes (ps.take j)).length + i) k)
        (16 + (framesBytes (ps.take j)).length) = .ioErr := by
  have hpj : PayloadOk (ps.getD j []) := by
    rw [List.getD_eq_getElem ps [] hj]
    exact hok _ (List.getElem_mem hj)
  have hA : (hdr ++ framesBytes (ps.take j)).length =
      16 + (framesBytes (ps.take j)).length := by simp [h16]
  have hfile : hdr ++ framesBytes ps =
      (hdr ++ framesBytes (ps.take j)) ++
        (frameBytes (ps.getD j []) ++ framesBytes (ps.drop (j + 1))) := by
    rw [frames_split hj, List.append_assoc]
  have hflip : flipBitAt (hdr ++ framesBytes ps)
      (16 + (framesBytes (ps.take j)).length + i) k =
      (hdr ++ framesBytes (ps.take j)) ++
        (flipBitAt (frameBytes (ps.getD j [])) i k ++
          framesBytes (ps.drop (j + 1))) := by
    rw [hfile]
    rw [show 16 + (framesBytes (ps.take j)).length + i =
      (hdr ++ framesBytes (ps.take j)).length + i by rw [hA]]
    rw [flipBitAt_append_right (by omega) k]
    rw [Nat.add_sub_cancel_left]
    rw [flipBitAt_append_left (by rw [frameBytes_length]; omega) k]
  obtain ⟨q, crcb, hshape, hqlen, hclen, hqbytes, hne⟩ := flip_frame_shape hpj hi4 hi hk
  have hq28 : 28 ≤ q.length := by rw [hqlen]; exact hpj.1
  have hqfit : q.length + 4 < 2 ^ 32 := by rw [hqlen]; exact hpj.2.1
  refine ⟨?_, ?_, ?_⟩
  · rw [hflip, hshape, List.append_assoc, List.drop_left' h16]
    rw [readFrames_frames (fun p hp => hok p (List.take_subset j ps hp))]
    rw [readFrames_none (read_valid_entry_pseudo_none hq28 hqfit hclen hne _),
      List.append_nil]
  · rw [hflip, hshape]
    rw [show 16 + (framesBytes (ps.take j)).length =
      (hdr ++ framesBytes (ps.take j)).length from hA.symm]
    rw [List.drop_left]
    exact read_valid_entry_pseudo_none hq28 hqfit hclen hne _
  · rw [hflip, hshape]
    rw [show 16 + (framesBytes (ps.take j)).length =
      (hdr ++ framesBytes (ps.take j)).length from hA.symm]
    rw [read_one_at_append]
    exact readOneFrom_pseudo_ioErr hq28 hqfit hclen hne _

/-- Witness for C3: flipping bit 0 of the first payload byte of the only
frame of a one-record cube. -/
theorem c3_crc_detection_witness :
    readFrames ((flipBitAt (headerBytes 2 ++ framesBytes [payloadBytes 0 1 [] []])
        (16 + (framesBytes (([payloadBytes 0 1 [] []] : List (List Nat)).take 0)).length + 4) 0).drop 16) =
      ([payloadBytes 0 1 [] []] : List (List Nat)).take 0 ∧
    read_valid_entry ((flipBitAt (headerBytes 2 ++ framesBytes [payloadBytes 0 1 [] []])
        (16 + (framesBytes (([payloadBytes 0 1 [] []] : List (List Nat)).take 0)).length + 4) 0).drop
        (16 + (framesBytes (([payloadBytes 0 1 [] []] : List (List Nat)).take 0)).length)) = none ∧
    read_one_at (flipBitAt (headerBytes 2 ++ framesBytes [payloadBytes 0 1 [] []])
        (16 + (framesBytes (([payloadBytes 0 1 [] []] : List (List Nat)).take 0)).length + 4) 0)
        (16 + (framesBytes (([payloadBytes 0 1 [] []] : List (List Nat)).take 0)).length) = .ioErr :=
  c3_crc_detection (headerBytes 2) [payloadBytes 0 1 [] []] 0 4 0
    (by decide) (by decide) (by decide) (by decide) (by decide) (by decide)

/-! ## Commit protocol (`src/ak.rs`, C8) -/

/-- The bytes of the literal string `"commit"`. -/
def PHEN_COMMIT : List Nat := [99, 111, 109, 109, 105, 116]

/-- The bytes of the literal string `"commit:pending"`. -/
def PHEN_PENDING : List Nat :=
  [99, 111, 109, 109, 105, 116, 58, 112, 101, 110, 100, 105, 110, 103]

/-- Sorted insertion into the id-keyed index, replacing an equal key:
the effect of `BTreeMap::insert` on the ascending association list. -/
def insertIdx : List (Nat × Nat) → Nat → Nat → List (Nat × Nat)
  | [], id, off => [(id, off)]
  | (k, v) :: t, id, off =>
    if id < k then (id, off) :: (k, v) :: t
    else if id = k then (id, off) :: t
    else (k, v) :: insertIdx t id off

/-- `Writer::rebuild_index` over the already-scanned entries: insert
`(id, offset)` for each valid entry, stopping (`break`) at a payload
shorter than 24 bytes. -/
def rebuildIndexAux : List (Nat × Nat × List Nat) → List (Nat × Nat) → List (Nat × Nat)
  | [], acc => acc
  | (off, _, p) :: rest, acc =>
    if p.length < 16 + 8 then acc
    else rebuildIndexAux rest (insertIdx acc (idOfPayload p) off)

/-- `Writer::rebuild_index`: ascending `id → offset` map of all valid
records. -/
def rebuild_index (file : List Nat) : List (Nat × Nat) :=
  rebuildIndexAux (entriesOf file) []

/-- The loop of `read_commits_from_cube`: fetch each indexed offset with
`read_one_at` and keep the events whose phenomenon is `"commit"`.  An
`io::Error` propagates (`?`) and a panic aborts the command; both are
modelled as `none`. -/
def commitsFromIndex (file : List Nat) : List (Nat × Nat) → Option (List Event)
  | [] => some []
  | (_, off) :: rest =>
    match read_one_at file off with
    | .ok ev =>
      (commitsFromIndex file rest).map
        (fun l => if ev.phenomenon = PHEN_COMMIT then ev :: l else l)
    | _ => none

/-- `read_commits_from_cube`: open the cube with `Writer::create`,
rebuild the index, and fetch the commit events in ascending id order. -/
def read_commits_from_cube (file : List Nat) : Option (List Event) :=
  match create file with
  | .err => none
  | .ok file' _ => commitsFromIndex file' (rebuild_index file')

/-- `last_commit_id`: the event id of the last `"commit"` event. -/
def last_commit_id (file : List Nat) : Option (Option Nat) :=
  (read_commits_from_cube file).map (fun l => l.getLast?.map (fun e => e.id))

/-- The fields of the `CommitRecord` JSON payload built by the `seal`
branch of `main`. -/
structure CommitRec where
  id : Nat
  parent : Option Nat
  ty : List Nat
  summary : List Nat
  body : List Nat
  author : List Nat
  author_email : List Nat
  timestamp : Nat
deriving DecidableEq

/-- Decimal ASCII digits of a natural number (fuelled). -/
def natDigitsAux : Nat → Nat → List Nat
  | 0, _ => []
  | f + 1, n => if n < 10 then [48 + n] else natDigitsAux f (n / 10) ++ [48 + n % 10]

/-- Decimal ASCII digits of a natural number. -/
def natDigits (n : Nat) : List Nat := natDigitsAux (n + 1) n

/-- Encoding of the optional parent id: `null` or its digits. -/
def encodeParent : Option Nat → List Nat
  | none => [110, 117, 108, 108]
  | some p => natDigits p

/-- Modelled from the spec: the serde_json serialisation of
`CommitRecord` (an external crate, so its exact formatting — spacing,
escaping — is not reproduced; only the embedded field values matter to
the claims, and no code in scope parses this JSON back).  Produces
`{"id":…,"parent":…,"ty":"…","summary":"…","body":"…","author":"…",
"author_email":"…","timestamp":…}` as raw bytes. -/
def encodeCommit (r : CommitRec) : List Nat :=
  [123, 34, 105, 100, 34, 58] ++ natDigits r.id ++
  [44, 34, 112, 97, 114, 101, 110, 116, 34, 58] ++ encodeParent r.parent ++
  [44, 34, 116, 121, 34, 58, 34] ++ r.ty ++ [34] ++
  [44, 34, 115, 117, 109, 109, 97, 114, 121, 34, 58, 34] ++ r.summary ++ [34] ++
  [44, 34, 98, 111, 100, 121, 34, 58, 34] ++ r.body ++ [34] ++
  [44, 34, 97, 117, 116, 104, 111, 114, 34, 58, 34] ++ r.author ++ [34] ++
  [44, 34, 97, 117, 116, 104, 111, 114, 95, 101, 109, 97, 105, 108, 34, 58, 34] ++
    r.author_email ++ [34] ++
  [44, 34, 116, 105, 109, 101, 115, 116, 97, 109, 112, 34, 58] ++
    natDigits r.timestamp ++ [125]

/-- The commit record the seal branch builds from the read-back pending
event and the previously computed parent:
`u64::try_from(ts / 1_000_000).unwrap_or(0)` for the timestamp. -/
def mkCommitRec (ev : Event) (parent : Option Nat)
    (ty su bo au em : List Nat) : CommitRec :=
  ⟨ev.id, parent, ty, su, bo, au, em,
    if ev.timestamp / 1000000 < 2 ^ 64 then ev.timestamp / 1000000 else 0⟩

/-- `save_string_in_cube`: reopen the cube via `Writer::create` and
append one record, returning the new file contents and the offset. -/
def appendToCube (file : List Nat) (ts : Nat) (ph no : List Nat) :
    Option (List Nat × Nat) :=
  match create file with
  | .err => none
  | .ok file' nid =>
    match append ⟨file', nid⟩ ts ph no with
    | some (s, off) => some (s.file, off)
    | none => none

/-- The event of a successful `read_one_at`; `expect` aborts on an
`io::Error` and a panic aborts the process, both modelled as `none`. -/
def okEvent : ReadOneResult → Option Event
  | .ok ev => some ev
  | _ => none

/-- The `seal` branch of `main` (after hooks and prompts): compute the
parent via `last_commit_id`, reserve an id by appending a
`"commit:pending"` record with the rendered message `msg`, read it back
at the returned offset, then append the durable `"commit"` record whose
payload embeds the assigned id and the parent.  `ts1`/`ts2` are the
clock values of the two appends.  Any failure (`expect`) aborts. -/
def sealCube (file : List Nat) (ts1 ts2 : Nat) (msg ty su bo au em : List Nat) :
    Option (List Nat × CommitRec) :=
  (last_commit_id file).bind (fun parent =>
    (appendToCube file ts1 PHEN_PENDING msg).bind (fun r =>
      (okEvent (read_one_at r.1 r.2)).bind (fun ev =>
        (appendToCube r.1 ts2 PHEN_COMMIT
            (encodeCommit (mkCommitRec ev parent ty su bo au em))).map
          (fun r2 => (r2.1, mkCommitRec ev parent ty su bo au em)))))

/-- The id of the most recent record with phenomenon `"commit"` among
the parsed payloads of a cube, in file order. -/
def lastCommitIdOf (ps : List (List Nat)) : Option Nat :=
  (((ps.filterMap parse_payload).filter
      (fun ev => ev.phenomenon = PHEN_COMMIT)).getLast?).map (fun e => e.id)


/-! ## Commit protocol lemmas -/

/-- Reopening a cube whose header already carries a nonzero `next_id`
leaves the file untouched and loads that id. -/
theorem create_headerBytes {n : Nat} (hn0 : n ≠ 0) (hn : n < 2 ^ 64) (X : List Nat) :
    create (headerBytes n ++ X) = .ok (headerBytes n ++ X) n := by
  have hlen : (headerBytes n ++ X).length = 16 + X.length := by simp
  have hsplit : headerBytes n ++ X =
      (MAGIC ++ toLEBytes 2 1) ++ ((toLEBytes 8 n ++ [0, 0]) ++ X) := by
    rw [headerBytes_eq, List.append_assoc]
  have htake4 : (headerBytes n ++ X).take 4 = MAGIC := by
    have h4 : headerBytes n ++ X =
        MAGIC ++ (toLEBytes 2 1 ++ ((toLEBytes 8 n ++ [0, 0]) ++ X)) := by
      rw [headerBytes_eq]
      simp [List.append_assoc]
    rw [h4]
    exact List.take_left' rfl
  have hnid : fromLEBytes (((headerBytes n ++ X).drop 6).take 8) = n := by
    rw [hsplit, List.drop_left' (by rfl), List.append_assoc,
      List.take_left' (by simp)]
    exact fromLEBytes_toLEBytes_of_lt hn
  unfold create
  rw [if_neg (by omega), if_neg (by omega), if_neg (by simp [htake4]),
    if_neg (show ¬ fromLEBytes (((headerBytes n ++ X).drop 6).take 8) = 0 by
      rw [hnid]; exact hn0), hnid]

/-- `save_string_in_cube` on a well-formed open cube appends the record
and bumps the header in lockstep. -/
theorem appendToCube_state {n : Nat} {ps : List (List Nat)} (ts : Nat)
    (ph no : List Nat) (hn0 : n ≠ 0) (hn : n + 1 < 2 ^ 64) :
    appendToCube (headerBytes n ++ framesBytes ps) ts ph no =
      some (headerBytes (n + 1) ++ framesBytes (ps ++ [payloadBytes ts n ph no]),
            (headerBytes n ++ framesBytes ps).length) := by
  unfold appendToCube
  rw [create_headerBytes hn0 (by omega) (framesBytes ps)]
  show (match append ⟨headerBytes n ++ framesBytes ps, n⟩ ts ph no with
        | some (s, off) => some (s.file, off)
        | none => none) = _
  rw [append_state hn]

/-- Inserting a key strictly greater than all keys of an ascending
association list appends it at the end. -/
theorem insertIdx_append : ∀ (l : List (Nat × Nat)) (id off : Nat),
    (∀ k ∈ l.map Prod.fst, k < id) → insertIdx l id off = l ++ [(id, off)] := by
  intro l
  induction l with
  | nil => intro id off _; rfl
  | cons kv t ih =>
    intro id off h
    obtain ⟨k, v⟩ := kv
    have hk : k < id := h k (by simp)
    simp only [insertIdx]
    rw [if_neg (by omega), if_neg (by omega)]
    rw [ih id off (fun k' hk' => h k' (by simp [hk']))]
    rfl

theorem entriesFor_map_id : ∀ (off : Nat) (ps : List (List Nat)),
    (entriesFor off ps).map (fun e => idOfPayload e.2.2) = ps.map idOfPayload := by
  intro off ps
  induction ps generalizing off with
  | nil => rfl
  | cons p t ih =>
    show idOfPayload p ::
      (entriesFor (off + 8 + p.length) t).map (fun e => idOfPayload e.2.2) = _
    rw [ih]
    rfl

theorem entriesFor_mem_payload : ∀ (off : Nat) (ps : List (List Nat))
    (e : Nat × Nat × List Nat), e ∈ entriesFor off ps → e.2.2 ∈ ps := by
  intro off ps
  induction ps generalizing off with
  | nil => intro e he; exact absurd he (List.not_mem_nil e)
  | cons p t ih =>
    intro e he
    rw [show entriesFor off (p :: t) =
      (off, p.length + 4, p) :: entriesFor (off + 8 + p.length) t from rfl] at he
    rcases List.mem_cons.mp he with h | h
    · rw [h]; exact List.mem_cons_self p t
    · exact List.mem_cons_of_mem _ (ih _ _ h)

/-- Folding the index over entries with strictly increasing ids keeps the
accumulator ascending: each insert lands at the end. -/
theorem rebuildIndexAux_entries : ∀ (es : List (Nat × Nat × List Nat))
    (acc : List (Nat × Nat)),
    (∀ e ∈ es, 24 ≤ e.2.2.length) →
    (es.map (fun e => idOfPayload e.2.2)).Pairwise (· < ·) →
    (∀ k ∈ acc.map Prod.fst, ∀ i ∈ es.map (fun e => idOfPayload e.2.2), k < i) →
    rebuildIndexAux es acc = acc ++ es.map (fun e => (idOfPayload e.2.2, e.1)) := by
  intro es
  induction es with
  | nil =>
    intro acc _ _ _
    show acc = acc ++ []
    rw [List.append_nil]
  | cons e t ih =>
    intro acc hlen hpw hlt
    obtain ⟨off, len, p⟩ := e
    have h24 : 24 ≤ p.length := hlen _ (List.mem_cons_self _ _)
    have hpw' := List.pairwise_cons.mp (by
      simpa using hpw : (idOfPayload p ::
        t.map (fun e => idOfPayload e.2.2)).Pairwise (· < ·))
    have hins : insertIdx acc (idOfPayload p) off = acc ++ [(idOfPayload p, off)] :=
      insertIdx_append acc (idOfPayload p) off
        (fun k hk => hlt k hk (idOfPayload p) (by simp))
    have hlt' : ∀ k ∈ (acc ++ [(idOfPayload p, off)]).map Prod.fst,
        ∀ i ∈ t.map (fun e => idOfPayload e.2.2), k < i := by
      intro k hk i hi
      rw [List.map_append] at hk
      rcases List.mem_append.mp hk with h | h
      · exact hlt k h i (by simp [hi])
      · have : k = idOfPayload p := by simpa using h
        rw [this]
        exact hpw'.1 i hi
    simp only [rebuildIndexAux]
    rw [if_neg (by omega), hins,
      ih (acc ++ [(idOfPayload p, off)])
        (fun e' he' => hlen e' (List.mem_cons_of_mem _ he')) hpw'.2 hlt']
    rw [List.map_cons, List.append_assoc]
    rfl

/-- The entries of a well-formed cube. -/
theorem entriesOf_headerFrames {n : Nat} {ps : List (List Nat)}
    (hok : ∀ p ∈ ps, PayloadOk p) :
    entriesOf (headerBytes n ++ framesBytes ps) = entriesFor 16 ps := by
  unfold entriesOf
  rw [List.drop_left' (by simp)]
  have hscan := scanEntries_frames ps 16 []
    (headerBytes n ++ framesBytes ps).length hok (by simp)
  rw [List.append_nil] at hscan
  rw [hscan]
  rw [show scanEntries ([] : List Nat).length (16 + (framesBytes ps).length) [] = []
    from rfl]
  rw [List.append_nil]

/-- `rebuild_index` of a well-formed cube whose record ids increase
strictly is the ascending `(id, offset)` list of its entries. -/
theorem rebuild_index_wf {n : Nat} {ps : List (List Nat)}
    (hok : ∀ p ∈ ps, PayloadOk p)
    (hincr : (ps.map idOfPayload).Pairwise (· < ·)) :
    rebuild_index (headerBytes n ++ framesBytes ps) =
      (entriesFor 16 ps).map (fun e => (idOfPayload e.2.2, e.1)) := by
  unfold rebuild_index
  rw [entriesOf_headerFrames hok]
  rw [rebuildIndexAux_entries (entriesFor 16 ps) []
    (fun e he => le_trans (by norm_num) (hok _ (entriesFor_mem_payload 16 ps e he)).1)
    (by rw [entriesFor_map_id]; exact hincr)
    (by intro k hk; exact absurd hk (List.not_mem_nil k))]
  rw [List.nil_append]

/-- Walking the rebuilt index of a well-formed cube with `read_one_at`
yields exactly the `"commit"`-phenomenon events, in file order. -/
theorem commitsFromIndex_entries : ∀ (ps : List (List Nat)) (pre : List Nat),
    (∀ p ∈ ps, PayloadOk p) →
    (∀ p ∈ ps, (parse_payload p).isSome) →
    commitsFromIndex (pre ++ framesBytes ps)
      ((entriesFor pre.length ps).map (fun e => (idOfPayload e.2.2, e.1))) =
      some ((ps.filterMap parse_payload).filter
        (fun ev => ev.phenomenon = PHEN_COMMIT)) := by
  intro ps
  induction ps with
  | nil => intro pre _ _; rfl
  | cons p t ih =>
    intro pre hok hparse
    obtain ⟨ev, hev⟩ :=
      Option.isSome_iff_exists.mp (hparse p (List.mem_cons_self p t))
    have hframe : pre ++ framesBytes (p :: t) =
        (pre ++ frameBytes p) ++ framesBytes t := by
      rw [framesBytes_cons, List.append_assoc]
    have hpre' : (pre ++ frameBytes p).length = pre.length + 8 + p.length := by
      simp
      omega
    have hread : read_one_at (pre ++ framesBytes (p :: t)) pre.length = .ok ev := by
      rw [framesBytes_cons, read_one_at_append]
      exact readOneFrom_frame (hok p (List.mem_cons_self p t)) hev (framesBytes t)
    have hstep := ih (pre ++ frameBytes p)
      (fun q hq => hok q (List.mem_cons_of_mem _ hq))
      (fun q hq => hparse q (List.mem_cons_of_mem _ hq))
    rw [hpre', ← hframe] at hstep
    show commitsFromIndex (pre ++ framesBytes (p :: t))
      ((idOfPayload p, pre.length) ::
        (entriesFor (pre.length + 8 + p.length) t).map
          (fun e => (idOfPayload e.2.2, e.1))) = _
    simp only [commitsFromIndex]
    rw [hread]
    show ((commitsFromIndex (pre ++ framesBytes (p :: t))
      ((entriesFor (pre.length + 8 + p.length) t).map
        (fun e => (idOfPayload e.2.2, e.1)))).map
        (fun l => if ev.phenomenon = PHEN_COMMIT then ev :: l else l)) = _
    rw [hstep, Option.map_some']
    rw [List.filterMap_cons_some hev, List.filter_cons]
    by_cases hc : ev.phenomenon = PHEN_COMMIT
    · rw [if_pos hc, if_pos (by simp [hc])]
    · rw [if_neg hc, if_neg (by simp [hc])]

/-- `last_commit_id` of a well-formed cube with strictly increasing ids:
the event id of the most recent record with phenomenon `"commit"`. -/
theorem last_commit_id_wf {n : Nat} {ps : List (List Nat)}
    (hn0 : n ≠ 0) (hn : n < 2 ^ 64)
    (hok : ∀ p ∈ ps, PayloadOk p)
    (hparse : ∀ p ∈ ps, (parse_payload p).isSome)
    (hincr : (ps.map idOfPayload).Pairwise (· < ·)) :
    last_commit_id (headerBytes n ++ framesBytes ps) = some (lastCommitIdOf ps) := by
  unfold last_commit_id read_commits_from_cube
  rw [create_headerBytes hn0 hn]
  show (commitsFromIndex (headerBytes n ++ framesBytes ps)
      (rebuild_index (headerBytes n ++ framesBytes ps))).map
      (fun l => l.getLast?.map (fun e => e.id)) = _
  rw [rebuild_index_wf hok hincr]
  have h := commitsFromIndex_entries ps (headerBytes n) hok hparse
  simp only [headerBytes_length] at h
  rw [h, Option.map_some']
  rfl

/-- Full behaviour of the seal branch on a well-formed open cube: the
parent is computed *before* the pending append, the pending record gets
id `n`, and the durable commit record gets event id `n + 1`, embedding
the assigned id `n` and the parent. -/
theorem sealCube_wf {n : Nat} {ps : List (List Nat)} (ts1 ts2 : Nat)
    (msg ty su bo au em : List Nat)
    (hn0 : n ≠ 0) (hn : n + 2 < 2 ^ 64)
    (hok : ∀ p ∈ ps, PayloadOk p)
    (hparse : ∀ p ∈ ps, (parse_payload p).isSome)
    (hincr : (ps.map idOfPayload).Pairwise (· < ·))
    (hts1 : ts1 < 2 ^ 128)
    (hmsgv : utf8Valid msg = true) (hmsgb : ∀ b ∈ msg, b < 256)
    (hmsgl : msg.length ≤ 65535) :
    sealCube (headerBytes n ++ framesBytes ps) ts1 ts2 msg ty su bo au em =
      some (headerBytes (n + 2) ++ framesBytes (ps ++
          [payloadBytes ts1 n PHEN_PENDING msg,
           payloadBytes ts2 (n + 1) PHEN_COMMIT
             (encodeCommit (mkCommitRec ⟨n, PHEN_PENDING, msg, ts1⟩
                (lastCommitIdOf ps) ty su bo au em))]),
        mkCommitRec ⟨n, PHEN_PENDING, msg, ts1⟩ (lastCommitIdOf ps) ty su bo au em) := by
  have hlast := last_commit_id_wf hn0 (by omega) hok hparse hincr
  have hpend1 := @appendToCube_state n ps ts1 PHEN_PENDING msg hn0 (by omega)
  have hpok : PayloadOk (payloadBytes ts1 n PHEN_PENDING msg) :=
    PayloadOk_payloadBytes ts1 n
      (by have h14 : PHEN_PENDING.length = 14 := rfl; omega)
      (by decide) hmsgb
  have hpparse : parse_payload (payloadBytes ts1 n PHEN_PENDING msg) =
      some ⟨n, PHEN_PENDING, msg, ts1⟩ :=
    parse_payloadBytes hts1 (by omega) (by decide) hmsgl (by decide) hmsgv
  have hfr1 : framesBytes [payloadBytes ts1 n PHEN_PENDING msg] =
      frameBytes (payloadBytes ts1 n PHEN_PENDING msg) := by
    rw [framesBytes_cons, framesBytes_nil, List.append_nil]
  have hsplit1 : headerBytes (n + 1) ++
      framesBytes (ps ++ [payloadBytes ts1 n PHEN_PENDING msg]) =
      (headerBytes (n + 1) ++ framesBytes ps) ++
        frameBytes (payloadBytes ts1 n PHEN_PENDING msg) := by
    rw [framesBytes_append, hfr1, List.append_assoc]
  have hoff : (headerBytes n ++ framesBytes ps).length =
      (headerBytes (n + 1) ++ framesBytes ps).length := by simp
  have hread : read_one_at
      (headerBytes (n + 1) ++
        framesBytes (ps ++ [payloadBytes ts1 n PHEN_PENDING msg]))
      (headerBytes n ++ framesBytes ps).length = .ok ⟨n, PHEN_PENDING, msg, ts1⟩ := by
    rw [hsplit1, hoff, read_one_at_append]
    rw [show frameBytes (payloadBytes ts1 n PHEN_PENDING msg) =
      frameBytes (payloadBytes ts1 n PHEN_PENDING msg) ++ []
      from (List.append_nil _).symm]
    exact readOneFrom_frame hpok hpparse []
  have hcomm := @appendToCube_state (n + 1)
    (ps ++ [payloadBytes ts1 n PHEN_PENDING msg]) ts2 PHEN_COMMIT
    (encodeCommit (mkCommitRec ⟨n, PHEN_PENDING, msg, ts1⟩
      (lastCommitIdOf ps) ty su bo au em))
    (by omega) (by omega)
  simp only [sealCube]
  rw [hlast, Option.some_bind, hpend1, Option.some_bind]
  simp only [hread, okEvent, Option.some_bind, hcomm, Option.map_some']
  rw [List.append_assoc]
  rfl

/-! ## ASCII facts about the serialised commit record -/

theorem natDigitsAux_ascii : ∀ (f n : Nat), ∀ b ∈ natDigitsAux f n, b < 128 := by
  intro f
  induction f with
  | zero => intro n b hb; exact absurd hb (List.not_mem_nil b)
  | succ f ih =>
    intro n b hb
    simp only [natDigitsAux] at hb
    by_cases h : n < 10
    · rw [if_pos h] at hb
      have hb' : b = 48 + n := by simpa using hb
      omega
    · rw [if_neg h] at hb
      rcases List.mem_append.mp hb with h' | h'
      · exact ih _ b h'
      · have hb' : b = 48 + n % 10 := by simpa using h'
        have hm : n % 10 < 10 := Nat.mod_lt n (by norm_num)
        omega

theorem natDigits_ascii (n : Nat) : ∀ b ∈ natDigits n, b < 128 :=
  natDigitsAux_ascii (n + 1) n

theorem encodeParent_ascii : ∀ (o : Option Nat), ∀ b ∈ encodeParent o, b < 128 := by
  intro o b hb
  cases o with
  | none =>
    exact (by decide : ∀ x ∈ [110, 117, 108, 108], x < 128) b hb
  | some p => exact natDigits_ascii p b hb

/-- All bytes below 128. -/
def asciiL (l : List Nat) : Prop := ∀ b ∈ l, b < 128

instance (l : List Nat) : Decidable (asciiL l) := by
  unfold asciiL; infer_instance

theorem asciiL_append {a b : List Nat} (ha : asciiL a) (hb : asciiL b) :
    asciiL (a ++ b) := by
  intro x hx
  rcases List.mem_append.mp hx with h | h
  · exact ha x h
  · exact hb x h

/-- The serialised commit record is ASCII whenever its string fields
are. -/
theorem encodeCommit_ascii {r : CommitRec}
    (hty : asciiL r.ty) (hsu : asciiL r.summary) (hbo : asciiL r.body)
    (hau : asciiL r.author) (hem : asciiL r.author_email) :
    asciiL (encodeCommit r) := by
  unfold encodeCommit
  repeat' apply asciiL_append
  all_goals first
    | decide
    | exact natDigits_ascii _
    | exact encodeParent_ascii _
    | assumption

theorem asciiL_bytes {l : List Nat} (h : asciiL l) : ∀ b ∈ l, b < 256 :=
  fun b hb => lt_trans (h b hb) (by norm_num)

/-- The id of the most recent `"commit"` record of a two-record cube
whose first record is not a commit and whose second is. -/
theorem lastCommitIdOf_two {p q : List Nat} {ev1 ev2 : Event}
    (h1 : parse_payload p = some ev1) (h2 : parse_payload q = some ev2)
    (hph1 : ev1.phenomenon ≠ PHEN_COMMIT) (hph2 : ev2.phenomenon = PHEN_COMMIT) :
    lastCommitIdOf [p, q] = some ev2.id := by
  unfold lastCommitIdOf
  rw [List.filterMap_cons_some h1, List.filterMap_cons_some h2]
  rw [show List.filterMap parse_payload [] = [] from rfl]
  rw [List.filter_cons, List.filter_cons]
  rw [if_neg (by simp [hph1]), if_pos (by simp [hph2]), List.filter_nil]
  rfl

/-- **C8**: For every well-formed cube, the finalised commit record
built by `seal` carries in its `parent` field the id of the most recent
prior record with phenomenon `"commit"` in that cube
(`lastCommitIdOf`), or null if none exists; hence after two successful
seal operations from a fresh cube, the second commit's parent equals
the id of the first commit record and the first commit's parent is
null. -/
theorem c8_commit_parent_chain :
    (∀ (n : Nat) (ps : List (List Nat)) (ts1 ts2 : Nat)
        (msg ty su bo au em : List Nat),
      n ≠ 0 → n + 2 < 2 ^ 64 →
      (∀ p ∈ ps, PayloadOk p) →
      (∀ p ∈ ps, (parse_payload p).isSome) →
      (ps.map idOfPayload).Pairwise (· < ·) →
      ts1 < 2 ^ 128 →
      utf8Valid msg = true → (∀ b ∈ msg, b < 256) → msg.length ≤ 65535 →
      ∃ file',
        sealCube (headerBytes n ++ framesBytes ps) ts1 ts2 msg ty su bo au em =
          some (file',
            mkCommitRec ⟨n, PHEN_PENDING, msg, ts1⟩ (lastCommitIdOf ps)
              ty su bo au em) ∧
        (mkCommitRec ⟨n, PHEN_PENDING, msg, ts1⟩ (lastCommitIdOf ps)
            ty su bo au em).parent = lastCommitIdOf ps ∧
        (mkCommitRec ⟨n, PHEN_PENDING, msg, ts1⟩ (lastCommitIdOf ps)
            ty su bo au em).id = n) ∧
    (∀ (ts1 ts2 ts3 ts4 : Nat)
        (msg1 ty1 su1 bo1 au1 em1 msg2 ty2 su2 bo2 au2 em2 : List Nat),
      ts1 < 2 ^ 128 → ts2 < 2 ^ 128 → ts3 < 2 ^ 128 →
      utf8Valid msg1 = true → (∀ b ∈ msg1, b < 256) → msg1.length ≤ 65535 →
      utf8Valid msg2 = true → (∀ b ∈ msg2, b < 256) → msg2.length ≤ 65535 →
      (∀ b ∈ ty1, b < 128) → (∀ b ∈ su1, b < 128) → (∀ b ∈ bo1, b < 128) →
      (∀ b ∈ au1, b < 128) → (∀ b ∈ em1, b < 128) →
      (encodeCommit (mkCommitRec ⟨1, PHEN_PENDING, msg1, ts1⟩ none
          ty1 su1 bo1 au1 em1)).length ≤ 65535 →
      sealCube (headerBytes 1) ts1 ts2 msg1 ty1 su1 bo1 au1 em1 =
        some (headerBytes 3 ++ framesBytes
            [payloadBytes ts1 1 PHEN_PENDING msg1,
             payloadBytes ts2 2 PHEN_COMMIT
               (encodeCommit (mkCommitRec ⟨1, PHEN_PENDING, msg1, ts1⟩ none
                  ty1 su1 bo1 au1 em1))],
          mkCommitRec ⟨1, PHEN_PENDING, msg1, ts1⟩ none ty1 su1 bo1 au1 em1) ∧
      (mkCommitRec ⟨1, PHEN_PENDING, msg1, ts1⟩ none ty1 su1 bo1 au1 em1).parent
        = none ∧
      ∃ f2 rec2,
        sealCube (headerBytes 3 ++ framesBytes
            [payloadBytes ts1 1 PHEN_PENDING msg1,
             payloadBytes ts2 2 PHEN_COMMIT
               (encodeCommit (mkCommitRec ⟨1, PHEN_PENDING, msg1, ts1⟩ none
                  ty1 su1 bo1 au1 em1))]) ts3 ts4 msg2 ty2 su2 bo2 au2 em2 =
          some (f2, rec2) ∧
        rec2.parent = some (idOfPayload (payloadBytes ts2 2 PHEN_COMMIT
          (encodeCommit (mkCommitRec ⟨1, PHEN_PENDING, msg1, ts1⟩ none
            ty1 su1 bo1 au1 em1)))) ∧
        idOfPayload (payloadBytes ts2 2 PHEN_COMMIT
          (encodeCommit (mkCommitRec ⟨1, PHEN_PENDING, msg1, ts1⟩ none
            ty1 su1 bo1 au1 em1))) = 2 ∧
        rec2.id = 3) := by
  constructor
  · intro n ps ts1 ts2 msg ty su bo au em hn0 hn hok hparse hincr hts1 hmv hmb hml
    exact ⟨_, sealCube_wf ts1 ts2 msg ty su bo au em hn0 hn hok hparse hincr
      hts1 hmv hmb hml, rfl, rfl⟩
  · intro ts1 ts2 ts3 ts4 msg1 ty1 su1 bo1 au1 em1 msg2 ty2 su2 bo2 au2 em2
      hts1 hts2 hts3 hm1v hm1b hm1l hm2v hm2b hm2l hty1 hsu1 hbo1 hau1 hem1 hjlen
    have hjascii : asciiL (encodeCommit (mkCommitRec ⟨1, PHEN_PENDING, msg1, ts1⟩
        none ty1 su1 bo1 au1 em1)) :=
      encodeCommit_ascii hty1 hsu1 hbo1 hau1 hem1
    have hjv : utf8Valid (encodeCommit (mkCommitRec ⟨1, PHEN_PENDING, msg1, ts1⟩
        none ty1 su1 bo1 au1 em1)) = true := utf8Valid_of_ascii hjascii
    have hseal1 := @sealCube_wf 1 [] ts1 ts2 msg1 ty1 su1 bo1 au1 em1
      (by norm_num) (by norm_num)
      (fun p hp => absurd hp (List.not_mem_nil p))
      (fun p hp => absurd hp (List.not_mem_nil p))
      List.Pairwise.nil hts1 hm1v hm1b hm1l
    rw [show lastCommitIdOf [] = none from rfl] at hseal1
    rw [show framesBytes [] = [] from rfl, List.append_nil,
      show (1 : Nat) + 2 = 3 from rfl, List.nil_append] at hseal1
    have hpok1 : PayloadOk (payloadBytes ts1 1 PHEN_PENDING msg1) :=
      PayloadOk_payloadBytes ts1 1
        (by have h14 : PHEN_PENDING.length = 14 := rfl; omega) (by decide) hm1b
    have hpok2 : PayloadOk (payloadBytes ts2 2 PHEN_COMMIT
        (encodeCommit (mkCommitRec ⟨1, PHEN_PENDING, msg1, ts1⟩ none
          ty1 su1 bo1 au1 em1))) :=
      PayloadOk_payloadBytes ts2 2
        (by have h6 : PHEN_COMMIT.length = 6 := rfl; omega) (by decide)
        (asciiL_bytes hjascii)
    have hp1 : parse_payload (payloadBytes ts1 1 PHEN_PENDING msg1) =
        some ⟨1, PHEN_PENDING, msg1, ts1⟩ :=
      parse_payloadBytes hts1 (by norm_num) (by decide) hm1l (by decide) hm1v
    have hp2 : parse_payload (payloadBytes ts2 2 PHEN_COMMIT
        (encodeCommit (mkCommitRec ⟨1, PHEN_PENDING, msg1, ts1⟩ none
          ty1 su1 bo1 au1 em1))) =
        some ⟨2, PHEN_COMMIT,
          encodeCommit (mkCommitRec ⟨1, PHEN_PENDING, msg1, ts1⟩ none
            ty1 su1 bo1 au1 em1), ts2⟩ :=
      parse_payloadBytes hts2 (by norm_num) (by decide) hjlen (by decide) hjv
    have hidc : idOfPayload (payloadBytes ts2 2 PHEN_COMMIT
        (encodeCommit (mkCommitRec ⟨1, PHEN_PENDING, msg1, ts1⟩ none
          ty1 su1 bo1 au1 em1))) = 2 := by
      rw [idOf_payloadBytes]
      exact Nat.mod_eq_of_lt (by norm_num)
    have hidp : idOfPayload (payloadBytes ts1 1 PHEN_PENDING msg1) = 1 := by
      rw [idOf_payloadBytes]
      exact Nat.mod_eq_of_lt (by norm_num)
    have hok2 : ∀ p ∈ [payloadBytes ts1 1 PHEN_PENDING msg1,
        payloadBytes ts2 2 PHEN_COMMIT
          (encodeCommit (mkCommitRec ⟨1, PHEN_PENDING, msg1, ts1⟩ none
            ty1 su1 bo1 au1 em1))], PayloadOk p := by
      intro p hp
      rcases List.mem_cons.mp hp with h | h
      · rw [h]; exact hpok1
      · rcases List.mem_cons.mp h with h' | h'
        · rw [h']; exact hpok2
        · exact absurd h' (List.not_mem_nil p)
    have hparse2 : ∀ p ∈ [payloadBytes ts1 1 PHEN_PENDING msg1,
        payloadBytes ts2 2 PHEN_COMMIT
          (encodeCommit (mkCommitRec ⟨1, PHEN_PENDING, msg1, ts1⟩ none
            ty1 su1 bo1 au1 em1))], (parse_payload p).isSome := by
      intro p hp
      rcases List.mem_cons.mp hp with h | h
      · rw [h, hp1]; rfl
      · rcases List.mem_cons.mp h with h' | h'
        · rw [h', hp2]; rfl
        · exact absurd h' (List.not_mem_nil p)
    have hincr2 : (([payloadBytes ts1 1 PHEN_PENDING msg1,
        payloadBytes ts2 2 PHEN_COMMIT
          (encodeCommit (mkCommitRec ⟨1, PHEN_PENDING, msg1, ts1⟩ none
            ty1 su1 bo1 au1 em1))].map idOfPayload)).Pairwise (· < ·) := by
      rw [List.map_cons, List.map_cons, List.map_nil, hidp, hidc]
      exact (by decide : ([1, 2] : List Nat).Pairwise (· < ·))
    have hseal2 := @sealCube_wf 3
      [payloadBytes ts1 1 PHEN_PENDING msg1,
        payloadBytes ts2 2 PHEN_COMMIT
          (encodeCommit (mkCommitRec ⟨1, PHEN_PENDING, msg1, ts1⟩ none
            ty1 su1 bo1 au1 em1))]
      ts3 ts4 msg2 ty2 su2 bo2 au2 em2
      (by norm_num) (by norm_num) hok2 hparse2 hincr2 hts3 hm2v hm2b hm2l
    have hlast2 : lastCommitIdOf [payloadBytes ts1 1 PHEN_PENDING msg1,
        payloadBytes ts2 2 PHEN_COMMIT
          (encodeCommit (mkCommitRec ⟨1, PHEN_PENDING, msg1, ts1⟩ none
            ty1 su1 bo1 au1 em1))] = some 2 := by
      exact lastCommitIdOf_two hp1 hp2
        (show PHEN_PENDING ≠ PHEN_COMMIT by decide) rfl
    rw [hlast2] at hseal2
    refine ⟨hseal1, rfl, ?_⟩
    exact ⟨_, _, hseal2, by rw [hidc]; rfl, hidc, rfl⟩

/-- Witness for C8: two concrete seals from a fresh cube — the first
commit's parent is null and the second commit's parent is the first
commit record's id 2. -/
theorem c8_commit_parent_chain_witness :
    sealCube (headerBytes 1) 5 7 [109] [116] [115] [98] [97] [101] =
      some (headerBytes 3 ++ framesBytes
          [payloadBytes 5 1 PHEN_PENDING [109],
           payloadBytes 7 2 PHEN_COMMIT
             (encodeCommit (mkCommitRec ⟨1, PHEN_PENDING, [109], 5⟩ none
                [116] [115] [98] [97] [101]))],
        mkCommitRec ⟨1, PHEN_PENDING, [109], 5⟩ none [116] [115] [98] [97] [101]) ∧
    (mkCommitRec ⟨1, PHEN_PENDING, [109], 5⟩ none
        [116] [115] [98] [97] [101]).parent = none ∧
    ∃ f2 rec2,
      sealCube (headerBytes 3 ++ framesBytes
          [payloadBytes 5 1 PHEN_PENDING [109],
           payloadBytes 7 2 PHEN_COMMIT
             (encodeCommit (mkCommitRec ⟨1, PHEN_PENDING, [109], 5⟩ none
                [116] [115] [98] [97] [101]))]) 9 11
          [110] [117] [115] [98] [97] [101] =
        some (f2, rec2) ∧
      rec2.parent = some (idOfPayload (payloadBytes 7 2 PHEN_COMMIT
        (encodeCommit (mkCommitRec ⟨1, PHEN_PENDING, [109], 5⟩ none
          [116] [115] [98] [97] [101])))) ∧
      idOfPayload (payloadBytes 7 2 PHEN_COMMIT
        (encodeCommit (mkCommitRec ⟨1, PHEN_PENDING, [109], 5⟩ none
          [116] [115] [98] [97] [101]))) = 2 ∧
      rec2.id = 3 :=
  c8_commit_parent_chain.2 5 7 9 11 [109] [116] [115] [98] [97] [101]
    [110] [117] [115] [98] [97] [101]
    (by decide) (by decide) (by decide) (by decide) (by decide) (by decide)
    (by decide) (by decide) (by decide) (by decide) (by decide) (by decide)
    (by decide) (by decide) (by decide)

end Akasha
